import Mathlib

/-!
Formal model of the flatmap-maker centreline network routing engine
(`mapmaker/routing/__init__.py` and `mapmaker/properties/pathways.py`),
with theorems checking the specification's claims about it.

Node, feature and centreline identifiers are modelled as natural numbers
(the code only compares them for equality).  Real-valued geometry is
modelled over the rationals; where the code compares a Euclidean distance
against a non-negative radius, the model compares the squared distance
against the squared radius, which is equivalent and keeps every
definition executable.
-/

/-- Unordered 2-combinations of a list, in the order produced by Python's
`itertools.combinations(xs, 2)` as used by `get_connected_subgraph`. -/
def combinations2 : List α → List (α × α)
  | [] => []
  | x :: xs => (xs.map fun y => (x, y)) ++ combinations2 xs

/-- A finite undirected graph in the style of `networkx.Graph`: a list of
explicitly present vertices together with a list of undirected edges (an
edge also brings its endpoints into the vertex set, as `add_edge` does). -/
structure GraphL where
  verts : List Nat
  edges : List (Nat × Nat)
deriving DecidableEq

/-- All vertices of the graph: the explicit ones and all edge endpoints. -/
def GraphL.nodeList (G : GraphL) : List Nat :=
  G.verts ++ G.edges.flatMap fun e => [e.1, e.2]

def GraphL.hasNode (G : GraphL) (v : Nat) : Bool := G.nodeList.contains v

/-- Undirected adjacency: an edge in either orientation. -/
def GraphL.adj (G : GraphL) (u v : Nat) : Bool :=
  G.edges.contains (u, v) || G.edges.contains (v, u)

def GraphL.neighbors (G : GraphL) (u : Nat) : List Nat :=
  G.nodeList.filter fun v => G.adj u v

/-- Depth-first enumeration of the simple paths from `s` to `t` that avoid
`visited`, each path listing its vertices in order.  `fuel` bounds the
recursion depth; with `fuel` at least the number of vertices it reaches
every simple path. -/
def simplePathsAux (G : GraphL) : Nat → Nat → Nat → List Nat → List (List Nat)
  | 0, _, _, _ => []
  | fuel + 1, s, t, visited =>
    if s = t then [[s]]
    else
      ((G.neighbors s).filter fun n => ¬ visited.contains n).flatMap
        fun n => (simplePathsAux G fuel n t (s :: visited)).map fun p => s :: p

/-- All simple paths from `s` to `t` in `G` (empty when an endpoint is not a
vertex of `G`, the situation in which networkx raises `NodeNotFound`). -/
def simplePaths (G : GraphL) (s t : Nat) : List (List Nat) :=
  if G.hasNode s && G.hasNode t then
    simplePathsAux G (G.nodeList.length + 1) s t []
  else []

/-- The set of shortest paths from `s` to `t`, as enumerated by
`networkx.all_shortest_paths`: the simple paths of minimal length.  Empty
when no path exists (networkx raises `NetworkXNoPath` there; the claims
only quantify over inputs where the shortest paths are defined). -/
def allShortestPaths (G : GraphL) (s t : Nat) : List (List Nat) :=
  let ps := simplePaths G s t
  match (ps.map List.length).min? with
  | none => []
  | some m => ps.filter fun p => p.length = m

/-- The vertex set `vpp` accumulated by `get_connected_subgraph`: every
vertex on any shortest path between any 2-combination of `v_prime`. -/
def vppList (G : GraphL) (vPrime : List Nat) : List Nat :=
  (combinations2 vPrime).flatMap fun pr =>
    (allShortestPaths G pr.1 pr.2).flatMap fun p => p

/-- The subgraph of `G` induced on the vertex set `vs`, as
`networkx.Graph.subgraph` builds it: the vertices of `G` lying in `vs`
and the edges of `G` with both endpoints in `vs`. -/
def GraphL.inducedSubgraph (G : GraphL) (vs : List Nat) : GraphL :=
  { verts := G.nodeList.filter fun v => vs.contains v
    edges := G.edges.filter fun e => vs.contains e.1 && vs.contains e.2 }

/-- Model of `get_connected_subgraph(graph, v_prime)` from
`mapmaker/routing/__init__.py`: induce on the union, over every pair of
`v_prime`, of all vertices on any shortest path between the pair. -/
def get_connected_subgraph (graph : GraphL) (vPrime : List Nat) : GraphL :=
  graph.inducedSubgraph (vppList graph vPrime)

/-- A walk inside `G`: consecutive vertices adjacent, all vertices present. -/
def IsWalkIn (G : GraphL) (p : List Nat) : Prop :=
  List.Chain' (fun a b => G.adj a b = true) p ∧ ∀ x ∈ p, G.hasNode x = true

/-- Connectivity of `u` to `v` by a walk inside `G`. -/
def ReachableIn (G : GraphL) (u v : Nat) : Prop :=
  ∃ p : List Nat, p.head? = some u ∧ p.getLast? = some v ∧ IsWalkIn G p

/-- A graph is connected when every two of its vertices are joined by a
walk (vacuously true for the empty graph). -/
def GraphL.ConnectedG (G : GraphL) : Prop :=
  ∀ u ∈ G.nodeList, ∀ v ∈ G.nodeList, ReachableIn G u v

/-! ### Geometry model for `create_geometry`: curve segments and the
junction-truncation bisection (`truncate_segments_start` and
`truncate_segments_end` in `mapmaker/routing/__init__.py`). -/

/-- A point of the plane. -/
abbrev Pt := ℚ × ℚ

/-- Squared Euclidean distance.  The code compares
`point.distanceFrom(centre)` with a non-negative radius `r`; the model
compares `sqDist point centre` with `r^2`, which is equivalent. -/
def sqDist (p q : Pt) : ℚ := (p.1 - q.1) ^ 2 + (p.2 - q.2) ^ 2

/-- A Bezier curve segment, modelled as a parameter window `[a, b]` onto an
underlying curve.  `beziers`' `splitAtTime` produces the two sub-curves
before and after the split point; windowing onto the same underlying curve
traces exactly the same points, and a window with `b < a` is a
reversed-parameter (negative-length) curve. -/
structure Seg where
  curve : ℚ → Pt
  a : ℚ
  b : ℚ

def Seg.paramAt (s : Seg) (t : ℚ) : ℚ := s.a + (s.b - s.a) * t

def Seg.pointAtTime (s : Seg) (t : ℚ) : Pt := s.curve (s.paramAt t)

def Seg.startPoint (s : Seg) : Pt := s.pointAtTime 0

def Seg.endPoint (s : Seg) : Pt := s.pointAtTime 1

/-- Model of `bz.splitAtTime(t)`. -/
def Seg.splitAtTime (s : Seg) (t : ℚ) : Seg × Seg :=
  (⟨s.curve, s.a, s.paramAt t⟩, ⟨s.curve, s.paramAt t, s.b⟩)

/-- A segment is forward (not reversed / negative-length). -/
def Seg.forward (s : Seg) : Prop := s.a ≤ s.b

/-- The `while True` bisection loop of `truncate_segments_start`:
`t = (u+v)/2`; distance above the outer radius moves `v`, distance below
the inner radius moves `u`, otherwise the loop breaks with `t`.  The code
has no iteration bound; the model adds explicit `fuel` and returns `none`
when the loop fails to break within `fuel` iterations.  The arithmetic is
modelled in exact rationals while the program computes in IEEE doubles;
conclusions conditional on the loop breaking transfer, but the exact
model's non-termination behaviour need not (double rounding of the
midpoint and of the distance can make the real loop break where the
exact one would not). -/
def bisectStart (f : ℚ → ℚ) (innerSq outerSq : ℚ) : Nat → ℚ → ℚ → Option ℚ
  | 0, _, _ => none
  | fuel + 1, u, v =>
    let t := (u + v) / 2
    if f t > outerSq then bisectStart f innerSq outerSq fuel u t
    else if f t < innerSq then bisectStart f innerSq outerSq fuel t v
    else some t

/-- The `while True` bisection loop of `truncate_segments_end`: the update
directions are swapped relative to `bisectStart`. -/
def bisectEnd (f : ℚ → ℚ) (innerSq outerSq : ℚ) : Nat → ℚ → ℚ → Option ℚ
  | 0, _, _ => none
  | fuel + 1, u, v =>
    let t := (u + v) / 2
    if f t > outerSq then bisectEnd f innerSq outerSq fuel t v
    else if f t < innerSq then bisectEnd f innerSq outerSq fuel u t
    else some t

/-- The leading-skip loop of `truncate_segments_start`: count the leading
segments whose end point is strictly inside the inner radius. -/
def skipEndInside (centre : Pt) (innerSq : ℚ) : List Seg → Nat
  | [] => 0
  | s :: rest =>
    if sqDist s.endPoint centre < innerSq then
      skipEndInside centre innerSq rest + 1
    else 0

/-- The trailing-skip loop of `truncate_segments_end`: count the trailing
segments whose start point is strictly inside the inner radius. -/
def skipStartInside (centre : Pt) (innerSq : ℚ) : List Seg → Nat
  | [] => 0
  | s :: rest =>
    if sqDist s.startPoint centre < innerSq then
      skipStartInside centre innerSq rest + 1
    else 0

/-- Model of `truncate_segments_start(segs, node)` with the node's centre
and radii passed explicitly (the code reads them from the node's
attributes).  `none` models divergence of the unbounded bisection loop
(and the `IndexError` on an empty list). -/
def truncate_segments_start (centre : Pt) (innerR outerR : ℚ) (fuel : Nat)
    (segs : List Seg) : Option (List Seg) :=
  match segs with
  | [] => none
  | s0 :: rest =>
    if sqDist s0.startPoint centre > innerR ^ 2 then some (s0 :: rest)
    else
      let n := skipEndInside centre (innerR ^ 2) (s0 :: rest)
      if h : n < (s0 :: rest).length then
        let bz := (s0 :: rest).get ⟨n, h⟩
        match bisectStart (fun t => sqDist (bz.pointAtTime t) centre)
            (innerR ^ 2) (outerR ^ 2) fuel 0 1 with
        | none => none
        | some t => some ((bz.splitAtTime t).2 :: (s0 :: rest).drop (n + 1))
      else some (s0 :: rest)

/-- Model of `truncate_segments_end(segs, node)`; the scan runs from the
end of the list, counting trailing segments via the reversed list. -/
def truncate_segments_end (centre : Pt) (innerR outerR : ℚ) (fuel : Nat)
    (segs : List Seg) : Option (List Seg) :=
  match segs with
  | [] => none
  | s0 :: rest =>
    if sqDist ((s0 :: rest).getLast (by simp)).endPoint centre > innerR ^ 2 then
      some (s0 :: rest)
    else
      let m := skipStartInside centre (innerR ^ 2) (s0 :: rest).reverse
      if h : m < (s0 :: rest).length then
        let n := (s0 :: rest).length - 1 - m
        let bz := (s0 :: rest).get ⟨(s0 :: rest).length - 1 - m, by omega⟩
        match bisectEnd (fun t => sqDist (bz.pointAtTime t) centre)
            (innerR ^ 2) (outerR ^ 2) fuel 0 1 with
        | none => none
        | some t => some ((s0 :: rest).take n ++ [(bz.splitAtTime t).1])
      else some (s0 :: rest)

/-- Straight segment from `(1/2, 0)` to `(3, 0)`, on which the truncation
bisection succeeds in one iteration for centre the origin, radii `(1, 2)`. -/
def w2Seg : Seg := ⟨fun t => (1 / 2 + (5 / 2) * t, 0), 0, 1⟩

/-- The squared distance profile seen by the bisection on `w2Seg`. -/
def w2f (t : ℚ) : ℚ := sqDist (w2Seg.pointAtTime t) (0, 0)

/-! ### Centreline scoring in `route_graph_from_connectivity` (claim C4) -/

/-- The `Counter` built over `container_features`: for every
`(node, feature_id)` pair of the component, every centreline contained in
that feature gets one count (`centreline_feature_count` in the code).
`contained` is the `__contained_centrelines` map. -/
def centrelineFeatureCount (contained : Nat → List Nat)
    (containerFeatures : List (Nat × Nat)) (cl : Nat) : Nat :=
  (containerFeatures.map fun nf => (contained nf.2).count cl).sum

/-- `centreline_score`: the count scaled by the total number of distinct
features containing the centreline (`__contained_count`). -/
def centrelineScore (contained : Nat → List Nat) (containedCount : Nat → Nat)
    (containerFeatures : List (Nat × Nat)) (cl : Nat) : ℚ :=
  (centrelineFeatureCount contained containerFeatures cl : ℚ) /
    (containedCount cl : ℚ)

/-- One step of the "most-used centreline" loop: a strictly greater score
replaces the running maximum (so ties keep the earlier centreline). -/
def selectStep (score : Nat → ℚ) (acc : Option Nat × ℚ) (cl : Nat) :
    Option Nat × ℚ :=
  if score cl > acc.2 then (some cl, score cl) else acc

/-- The `max_centreline`/`max_score` loop of
`route_graph_from_connectivity`, starting from `(None, 0)`. -/
def selectMaxCentreline (score : Nat → ℚ) (cls : List Nat) : Option Nat × ℚ :=
  cls.foldl (selectStep score) (none, 0)

/-- Concrete `__contained_centrelines` map for the spec's scenario:
feature `10` (F) contains centrelines `0` (X) and `1` (Y). -/
def w4Contained : Nat → List Nat := fun f => if f = 10 then [0, 1] else []

/-- Concrete `__contained_count`: X has 3 containing features, Y has 1. -/
def w4Count : Nat → Nat := fun cl => if cl = 0 then 3 else 1

/-! ### Path-components assignment in `create_geometry` (claim C5) -/

/-- One centreline edge as seen by the per-edge loop of `create_geometry`:
its id, whether `__find_feature` resolved its feature, and whether a
non-empty segment list was obtained for it (including the straight-line
fallback between the node centres). -/
structure GeomEdge where
  id : Nat
  featureResolved : Bool
  segsNonempty : Bool
deriving DecidableEq

/-- The per-edge loop of `create_geometry` around its final statement
`edge_dict['path-components'] = path_components`: in the source that
assignment sits outside the `if feature is not None:` block (and outside
`if segments:`), so an edge for which no new components were computed
stores the `path_components` value left over from an earlier edge, and if
the very first edge computes none the statement raises
`UnboundLocalError`.  `computeComps` abstracts the decomposition of the
edge's own curve into its ordered path components (splitting at
intermediate-node crossings); the claim is settled by where the result is
stored, not by its internal shape. -/
def assignPathComponents (computeComps : GeomEdge → α) :
    List GeomEdge → Option α → Except String (List (Nat × α))
  | [], _ => .ok []
  | e :: rest, prev =>
    if e.featureResolved && e.segsNonempty then
      (assignPathComponents computeComps rest (some (computeComps e))).map
        fun l => (e.id, computeComps e) :: l
    else
      match prev with
      | none => .error "UnboundLocalError: path_components"
      | some pc =>
        (assignPathComponents computeComps rest (some pc)).map
          fun l => (e.id, pc) :: l

/-! ### Route construction (`Route.__init__`, `parse_route_nodes` in
`mapmaker/properties/pathways.py`, list-form input; claim C8).  The
per-identifier token grammar `ID_TEXT` lives in `mapmaker/sources/markup`
(outside the sources provided), so single-identifier parsing is a
parameter `parseId`, with `none` standing for a pyparsing
`ParseException`; the string-form input delegates wholesale to the
excluded pyparsing grammar and is not modelled. -/

/-- An entry of a list-form route request: a plain node id or a
parenthesised group of ids. -/
inductive RouteEntry
  | single (s : String)
  | group (ss : List String)
deriving DecidableEq

/-- Parse a first/last entry: `NODE_ID.parseString(node_ids[i])` for a
string entry, a list comprehension of id parses for a list entry. -/
def parseEntry (parseId : String → Option String) :
    RouteEntry → Option RouteEntry
  | .single s => (parseId s).map .single
  | .group ss => (ss.mapM parseId).map .group

/-- Parse a middle entry: the code calls `NODE_ID.parseString(id)` on it
directly, which fails on a list entry. -/
def parseMiddle (parseId : String → Option String) :
    RouteEntry → Option RouteEntry
  | .single s => (parseId s).map .single
  | .group _ => none

/-- Model of `parse_route_nodes(node_ids)` on list input: the first and
last entries are parsed separately (for a one-entry list the single entry
is parsed twice and appears twice in the result), the middle entries in
between; an empty list hits `node_ids[0]` and raises `IndexError`; any
parse failure raises `ValueError`. -/
def parse_route_nodes (parseId : String → Option String)
    (nodeIds : List RouteEntry) : Except String (List RouteEntry) :=
  match nodeIds with
  | [] => .error "IndexError: node_ids[0]"
  | x0 :: restAll =>
    match parseEntry parseId x0 with
    | none => .error "ValueError: syntax error in route node list"
    | some first =>
      match restAll.dropLast.mapM (parseMiddle parseId) with
      | none => .error "ValueError: syntax error in route node list"
      | some mids =>
        match parseEntry parseId (restAll.getLastD x0) with
        | none => .error "ValueError: syntax error in route node list"
        | some lastP => .ok (first :: mids ++ [lastP])

/-- `Pathways.make_list`. -/
def makeList : RouteEntry → List String
  | .single s => [s]
  | .group ss => ss

/-- The node lists a constructed `Route` holds. -/
structure RouteData where
  start_nodes : List String
  through_nodes : List String
  end_nodes : List String
deriving DecidableEq

/-- Model of `Route.__init__(path_id, route)`: parse the route node list,
raise `ValueError` when the parsed list has fewer than two entries, then
split it into start / through / end nodes. -/
def Route_init (parseId : String → Option String) (pathId : String)
    (route : List RouteEntry) : Except String RouteData :=
  match parse_route_nodes parseId route with
  | .error e => .error e
  | .ok routing =>
    if routing.length < 2 then
      .error ("Route definition is too short for path " ++ pathId)
    else
      .ok { start_nodes := makeList (routing.headD (.single ""))
            through_nodes := ((routing.drop 1).dropLast).flatMap makeList
            end_nodes := makeList (routing.getLastD (.single "")) }

/-! ### `node_width_along_line` (claim C10).  Shapely geometry is an
external collaborator: a feature's region is abstracted by its bounding
box together with oracles for line intersection and boundary
intersection, and `p.distance(q)` by a `dist` parameter. -/

/-- The result of `geometry.boundary.intersection(line)` as the code
discriminates it: a single `Point`, a `MultiPoint` with its points, or
any other geometry type. -/
inductive BoundaryIntersection
  | single (p : Pt)
  | multi (ps : List Pt)
  | other
deriving DecidableEq

/-- An intermediate-node feature region as `node_width_along_line` sees
it. -/
structure IGeom where
  bounds : ℚ × ℚ × ℚ × ℚ
  intersectsLine : Pt × Pt → Bool
  boundaryIntersection : Pt × Pt → BoundaryIntersection

def ptAdd (p q : Pt) : Pt := (p.1 + q.1, p.2 + q.2)

def ptSub (p q : Pt) : Pt := (p.1 - q.1, p.2 - q.2)

def ptScale (k : ℚ) (p : Pt) : Pt := (k * p.1, k * p.2)

/-- The perpendicular probe line of `node_width_along_line`: the point
offset both ways along `dirn` by the bounding-box diagonal. -/
def probeLine (dist : Pt → Pt → ℚ) (geom : IGeom) (point dirn : Pt) :
    Pt × Pt :=
  let maxWidth := dist (geom.bounds.1, geom.bounds.2.1)
    (geom.bounds.2.2.1, geom.bounds.2.2.2)
  (ptSub point (ptScale maxWidth dirn), ptAdd point (ptScale maxWidth dirn))

/-- Model of `node_width_along_line(node_id, point, dirn)`: the returned
rational is the width (0 on any failure) and the boolean records whether
the error branch (`log.error`; every path other than a clean two-point
boundary intersection) was taken.  The function is total: it never
raises. -/
def node_width_along_line (dist : Pt → Pt → ℚ) (geom : IGeom)
    (point dirn : Pt) : ℚ × Bool :=
  let line := probeLine dist geom point dirn
  if geom.intersectsLine line then
    match geom.boundaryIntersection line with
    | .multi ps =>
      match ps with
      | [p1, p2] => (dist p1 p2, false)
      | _ => (0, true)
    | _ => (0, true)
  else (0, true)

/-! ### Network construction (`Network.__init__`; claims C6 and C7) -/

/-- A declared centreline: optional id, ordered `connects` node list,
declared `containedIn` feature ids. -/
structure Centreline where
  id? : Option Nat
  connects : List Nat
  containedIn : List Nat
deriving DecidableEq

/-- The attribute dictionary built for a centreline's edge: `id` is
always set, `intermediates` only when there are interior connects, and
`nerve` when a containing feature has type nerve. -/
structure EdgeProps where
  id : Nat
  intermediates : Option (List Nat)
  nerve : Option Nat
deriving DecidableEq

/-- `networkx` edge-attribute update on `add_edge` over an existing edge:
`dict.update` overwrites the keys the new dict provides and keeps the
rest. -/
def mergeProps (old pnew : EdgeProps) : EdgeProps :=
  { id := pnew.id
    intermediates :=
      match pnew.intermediates with
      | some l => some l
      | none => old.intermediates
    nerve :=
      match pnew.nerve with
      | some n => some n
      | none => old.nerve }

/-- `networkx.Graph.add_edge`: an edge already present between the same
unordered endpoint pair has its attributes updated in place (the stored
endpoint orientation is kept); otherwise a new edge is appended. -/
def addEdgeNX : List (Nat × Nat × EdgeProps) → Nat → Nat → EdgeProps →
    List (Nat × Nat × EdgeProps)
  | [], u, v, p => [(u, v, p)]
  | (a, b, q) :: rest, u, v, p =>
    if (a = u ∧ b = v) ∨ (a = v ∧ b = u) then (a, b, mergeProps q p) :: rest
    else (a, b, q) :: addEdgeNX rest u v p

/-- First-match association lookup (a Python dict keyed by id). -/
def lookupA : List (Nat × α) → Nat → Option α
  | [], _ => none
  | (k, v) :: rest, key => if k = key then some v else lookupA rest key

/-- `defaultdict(list)` append: `m[key].append(val)`. -/
def assocAppend (m : List (Nat × List Nat)) (key val : Nat) :
    List (Nat × List Nat) :=
  match m with
  | [] => [(key, [val])]
  | (k, vs) :: rest =>
    if k = key then (k, vs ++ [val]) :: rest
    else (k, vs) :: assocAppend rest key val

/-- The list a `defaultdict(list)` holds at `key` (empty when absent). -/
def lookupList (m : List (Nat × List Nat)) (k : Nat) : List Nat :=
  (lookupA m k).getD []

/-- The state `Network.__init__` accumulates: accepted centreline ids,
the feature → contained-centrelines map, the per-centreline distinct
containing-feature count, and the undirected centreline graph's edges. -/
structure NetworkState where
  centrelineIds : List Nat
  containedCentrelines : List (Nat × List Nat)
  containedCount : List (Nat × Nat)
  edges : List (Nat × Nat × EdgeProps)
deriving DecidableEq

/-- One iteration of the centreline loop of `Network.__init__`: missing
ids, duplicate ids and too-short connects lists are logged and skipped;
otherwise the centreline id is recorded, the containment index updated
over the distinct `containedIn` entries, and an edge added between the
first and last connects nodes. -/
def processCentreline (isNerve : Nat → Bool) (st : NetworkState)
    (c : Centreline) : NetworkState :=
  match c.id? with
  | none => st
  | some cid =>
    if cid ∈ st.centrelineIds then st
    else if c.connects.length < 2 then st
    else
      let containing := c.containedIn.dedup
      let props : EdgeProps :=
        { id := cid
          intermediates :=
            if 2 < c.connects.length then some (c.connects.drop 1).dropLast
            else none
          nerve := containing.foldl
            (fun acc f => if isNerve f then some f else acc) none }
      { centrelineIds := st.centrelineIds ++ [cid]
        containedCentrelines :=
          containing.foldl (fun m f => assocAppend m f cid)
            st.containedCentrelines
        containedCount := st.containedCount ++ [(cid, containing.length)]
        edges := addEdgeNX st.edges (c.connects.headD 0)
          (c.connects.getLastD 0) props }

/-- Model of `Network.__init__`: fold the centreline declarations over an
empty state.  `isNerve` abstracts the external
`external_properties.get_property(container_id, 'type') == 'nerve'`
lookup. -/
def buildNetwork (isNerve : Nat → Bool) (cs : List Centreline) :
    NetworkState :=
  cs.foldl (processCentreline isNerve) ⟨[], [], [], []⟩

/-- The id of a declared centreline (claims quantify over declarations
whose ids are present). -/
def Centreline.idOf (c : Centreline) : Nat := c.id?.getD 0

/-- Canonical form of an unordered endpoint pair. -/
def pkey (u v : Nat) : Nat × Nat := if u ≤ v then (u, v) else (v, u)

/-- The unordered endpoint pair a centreline's edge connects. -/
def Centreline.key (c : Centreline) : Nat × Nat :=
  pkey (c.connects.headD 0) (c.connects.getLastD 0)

/-- The unordered endpoint pairs of a stored edge list. -/
def edgeKeys (edges : List (Nat × Nat × EdgeProps)) : List (Nat × Nat) :=
  edges.map fun e => pkey e.1 e.2.1

/-- Hypotheses under which every declared centreline is accepted by
`Network.__init__`: ids present and pairwise distinct, fresh with respect
to the state's already-recorded ids, and at least two connects entries. -/
def ValidDecls (cs : List Centreline) (st : NetworkState) : Prop :=
  (∀ c ∈ cs, c.id?.isSome = true) ∧
  (∀ c ∈ cs, 2 ≤ c.connects.length) ∧
  (cs.map Centreline.idOf).Nodup ∧
  (∀ c ∈ cs, c.idOf ∉ st.centrelineIds)

/-! ### Frame property of route-graph construction (claim C9).

In Python the base centreline graph's per-node and per-edge attribute
dictionaries are mutable objects; subgraph views share them and
`nx.Graph(...)` copies them into new dicts.  The model gives every
attribute dict an address (a reference) into a store, so that sharing and
freshness — the substance of the frame claim — are explicit.  Attribute
values have an abstract type `V`; the external feature map and the pure
resolution logic (feature lookup, the centreline scoring modelled for
claim C4, `nx.connected_components` and `nx.edge_dfs`, which read but
never write) enter as parameters supplying the values written and the
node sets chosen, so the frame theorem holds for every outcome of
them. -/

/-- A store of attribute dictionaries: each reference below `next` is an
allocated dict. -/
structure RefStore (V : Type _) where
  next : Nat
  mem : Nat → List (String × V)

/-- Python `d[k] = v` on an attribute dict. -/
def dictSet (d : List (String × V)) (k : String) (v : V) : List (String × V) :=
  match d with
  | [] => [(k, v)]
  | (k0, v0) :: rest =>
    if k0 = k then (k0, v) :: rest else (k0, v0) :: dictSet rest k v

/-- Write one key of the dict at reference `r`. -/
def RefStore.write (st : RefStore V) (r : Nat) (k : String) (v : V) :
    RefStore V :=
  { st with mem := fun r2 => if r2 = r then dictSet (st.mem r2) k v else st.mem r2 }

/-- Allocate a fresh dict holding `d`; returns the new store and the new
reference. -/
def RefStore.alloc (st : RefStore V) (d : List (String × V)) :
    RefStore V × Nat :=
  ({ next := st.next + 1
     mem := fun r => if r = st.next then d else st.mem r }, st.next)

/-- A graph whose node and edge attribute dicts live in a store:
`(node id, dict ref)` and `(endpoint, endpoint, dict ref)`. -/
structure GraphR where
  nodes : List (Nat × Nat)
  edges : List (Nat × Nat × Nat)

/-- All dict references a graph holds. -/
def GraphR.refs (g : GraphR) : List Nat :=
  (g.nodes.map fun p => p.2) ++ g.edges.map fun e => e.2.2

/-- Well-formedness: a graph's dicts are all allocated. -/
def GraphR.wfIn (g : GraphR) (st : RefStore V) : Prop :=
  ∀ r ∈ g.refs, r < st.next

/-- The underlying attribute-free graph (for reuse of
`get_connected_subgraph`'s vertex-set computation). -/
def GraphR.toGraphL (g : GraphR) : GraphL :=
  ⟨g.nodes.map fun p => p.1, g.edges.map fun e => (e.1, e.2.1)⟩

/-- A `networkx` subgraph view: structure filtered, dicts shared. -/
def subgraphR (g : GraphR) (vs : List Nat) : GraphR :=
  { nodes := g.nodes.filter fun n => vs.contains n.1
    edges := g.edges.filter fun e => vs.contains e.1 && vs.contains e.2.1 }

/-- Copy the node dicts of a graph into freshly allocated dicts. -/
def copyNodes (st : RefStore V) : List (Nat × Nat) →
    RefStore V × List (Nat × Nat)
  | [] => (st, [])
  | (n, r) :: rest =>
    let a := st.alloc (st.mem r)
    let res := copyNodes a.1 rest
    (res.1, (n, a.2) :: res.2)

/-- Copy the edge dicts of a graph into freshly allocated dicts. -/
def copyEdges (st : RefStore V) : List (Nat × Nat × Nat) →
    RefStore V × List (Nat × Nat × Nat)
  | [] => (st, [])
  | (u, v, r) :: rest =>
    let a := st.alloc (st.mem r)
    let res := copyEdges a.1 rest
    (res.1, (u, v, a.2) :: res.2)

/-- `nx.Graph(h)`: same structure, every attribute dict copied into a
fresh one. -/
def copyGraphR (st : RefStore V) (g : GraphR) : RefStore V × GraphR :=
  let cn := copyNodes st g.nodes
  let ce := copyEdges cn.1 g.edges
  (ce.1, ⟨cn.2, ce.2⟩)

/-- The dict reference of a node (`g.nodes[n]`). -/
def nodeRefOf (g : GraphR) (n : Nat) : Option Nat :=
  (g.nodes.find? fun p => p.1 = n).map fun p => p.2

/-- The dict reference of an undirected edge (`g.edges[u, v]`). -/
def edgeRefOf (g : GraphR) (u v : Nat) : Option Nat :=
  (g.edges.find? fun e => (e.1 = u && e.2.1 = v) || (e.1 = v && e.2.1 = u)).map
    fun e => e.2.2

/-- `add_edge`'s implicit node creation: a missing endpoint gets a fresh
empty dict. -/
def ensureNode (st : RefStore V) (g : GraphR) (n : Nat) : RefStore V × GraphR :=
  if (g.nodes.map fun p => p.1).contains n then (st, g)
  else
    let a := st.alloc []
    (a.1, { g with nodes := g.nodes ++ [(n, a.2)] })

/-- `nx.Graph.add_edge u v`: create missing endpoints, and a fresh edge
dict when the edge is new. -/
def addEdgeR (st : RefStore V) (g : GraphR) (u v : Nat) : RefStore V × GraphR :=
  let s1 := ensureNode st g u
  let s2 := ensureNode s1.1 s1.2 v
  if s2.2.edges.any fun e => (e.1 = u && e.2.1 = v) || (e.1 = v && e.2.1 = u) then
    s2
  else
    let a := s2.1.alloc []
    (a.1, { s2.2 with edges := s2.2.edges ++ [(u, v, a.2)] })

/-- `__set_node_properties_from_feature`: write the feature's key/value
pairs through the node's dict reference. -/
def writePropsR (st : RefStore V) (r : Nat) (props : List (String × V)) :
    RefStore V :=
  props.foldl (fun s kv => s.write r kv.1 kv.2) st

/-- An entry of a `route_graph_from_connections` request: a plain node,
or a dict carrying a node and its non-network terminals. -/
inductive ConnEntry
  | plain (node : Nat)
  | withTerminals (node : Nat) (terminals : List Nat)

def ConnEntry.endNode : ConnEntry → Nat
  | .plain n => n
  | .withTerminals n _ => n

def ConnEntry.terminals : ConnEntry → List Nat
  | .plain _ => []
  | .withTerminals _ ts => ts

/-- One terminal addition in `route_graph_from_connections`:
`add_edge(end_node, terminal_id)`, then the terminal node's properties,
then the edge's `type = 'terminal'` attribute. -/
def addTerminal (featureProps : Nat → List (String × V)) (terminalTag : V)
    (endNode tid : Nat) (acc : RefStore V × GraphR) : RefStore V × GraphR :=
  let s1 := addEdgeR acc.1 acc.2 endNode tid
  let s2 := match nodeRefOf s1.2 tid with
            | some r => writePropsR s1.1 r (featureProps tid)
            | none => s1.1
  let s3 := match edgeRefOf s1.2 endNode tid with
            | some r => s2.write r "type" terminalTag
            | none => s2
  (s3, s1.2)

/-- Model of `Network.route_graph_from_connections`: copy the connected
subgraph of the base graph induced by the request's end nodes (fresh
dicts), then attach the declared terminals to the copy. -/
def route_graph_from_connections (st : RefStore V) (base : GraphR)
    (conns : List ConnEntry) (featureProps : Nat → List (String × V))
    (terminalTag : V) : RefStore V × GraphR :=
  let sub := subgraphR base (vppList base.toGraphL (conns.map ConnEntry.endNode))
  let cp := copyGraphR st sub
  conns.foldl (fun acc c =>
      c.terminals.foldl
        (fun acc2 tid => addTerminal featureProps terminalTag c.endNode tid acc2)
        acc)
    cp

/-- One terminal addition in `route_graph_from_connectivity`:
`add_edge(end_node, terminal_id, type='terminal')` (the type attribute is
set at creation), then the terminal node's properties. -/
def addTerminalC (featureProps : Nat → List (String × V)) (terminalTag : V)
    (endNode tid : Nat) (acc : RefStore V × GraphR) : RefStore V × GraphR :=
  let s1 := addEdgeR acc.1 acc.2 endNode tid
  let s2 := match edgeRefOf s1.2 endNode tid with
            | some r => s1.1.write r "type" terminalTag
            | none => s1.1
  let s3 := match nodeRefOf s1.2 tid with
            | some r => writePropsR s2 r (featureProps tid)
            | none => s2
  (s3, s1.2)

/-- `route_graph.add_nodes_from/add_edges_from` with data: nodes and
edges of the second graph not yet present are appended (their dicts were
freshly copied by the caller). -/
def mergeGraphR (g1 g2 : GraphR) : GraphR :=
  { nodes := g1.nodes ++
      g2.nodes.filter fun p => ¬ (g1.nodes.map fun q => q.1).contains p.1
    edges := g1.edges ++
      g2.edges.filter fun e =>
        ¬ (g1.edges.map fun q => (q.1, q.2.1)).contains (e.1, e.2.1) }

/-- One connected component of `route_graph_from_connectivity`: write the
`feature_id`/`feature_nodes` attributes of the component's nodes through
the connectivity graph's dicts (a subgraph view shares them), copy the
connected subgraph of the base graph induced by the resolved route
features, attach the component's terminals, copy again into the result
graph and merge.  `nodeWrites`, `routeFeatureIds` and `terminalsOf`
supply the outcomes of the store-read-only resolution logic. -/
def processComponentR (featureProps : Nat → List (String × V)) (terminalTag : V)
    (nodeWrites : Nat → List (String × V))
    (routeFeatureIds : List Nat → List Nat)
    (terminalsOf : List Nat → List (Nat × List Nat))
    (base connectivity : GraphR) (acc : RefStore V × GraphR)
    (comp : List Nat) : RefStore V × GraphR :=
  let st1 := comp.foldl (fun s n =>
      match nodeRefOf connectivity n with
      | some r => writePropsR s r (nodeWrites n)
      | none => s) acc.1
  let sub := subgraphR base (vppList base.toGraphL (routeFeatureIds comp))
  let cp := copyGraphR st1 sub
  let wt := (terminalsOf comp).foldl (fun acc2 et =>
      et.2.foldl
        (fun acc3 tid => addTerminalC featureProps terminalTag et.1 tid acc3)
        acc2) cp
  let cp2 := copyGraphR wt.1 wt.2
  (cp2.1, mergeGraphR acc.2 cp2.2)

/-- Model of `Network.route_graph_from_connectivity`: process each
connected component of the (undirected) connectivity graph and merge the
per-component route graphs. -/
def route_graph_from_connectivity (st : RefStore V) (base connectivity : GraphR)
    (featureProps : Nat → List (String × V)) (terminalTag : V)
    (nodeWrites : Nat → List (String × V))
    (routeFeatureIds : List Nat → List Nat)
    (terminalsOf : List Nat → List (Nat × List Nat))
    (components : List (List Nat)) : RefStore V × GraphR :=
  components.foldl
    (processComponentR featureProps terminalTag nodeWrites routeFeatureIds
      terminalsOf base connectivity)
    (st, ⟨[], []⟩)

/-- Store evolution touching only dicts at or above `bound` or in
`extra`: everything below `bound` and outside `extra` is unchanged. -/
def StoreEvolves (bound : Nat) (extra : List Nat) (st st2 : RefStore V) : Prop :=
  st.next ≤ st2.next ∧
  ∀ r, r < bound → r ∉ extra → st2.mem r = st.mem r

/-- A store/graph pair whose graph only holds dicts allocated at or above
`bound`. -/
def GoodRefs (bound : Nat) (p : RefStore V × GraphR) : Prop :=
  bound ≤ p.1.next ∧ ∀ r ∈ p.2.refs, bound ≤ r ∧ r < p.1.next

/-! ### Lemmas about the path enumeration and induced subgraphs -/

theorem hasNode_iff {G : GraphL} {v : Nat} : G.hasNode v = true ↔ v ∈ G.nodeList := by
  simp [GraphL.hasNode]

theorem mem_of_head?_eq {l : List Nat} {a : Nat} (h : l.head? = some a) : a ∈ l := by
  cases l with
  | nil => simp at h
  | cons x xs => simp_all

theorem mem_of_getLast?_eq {l : List Nat} {a : Nat} (h : l.getLast? = some a) : a ∈ l := by
  have h2 : l.reverse.head? = some a := by rw [List.head?_reverse, h]
  exact List.mem_reverse.mp (mem_of_head?_eq h2)

theorem neighbors_mem {G : GraphL} {u v : Nat} (h : v ∈ G.neighbors u) :
    v ∈ G.nodeList ∧ G.adj u v = true := by
  simpa [GraphL.neighbors, List.mem_filter] using h

/-- Soundness of the depth-first path enumeration: every enumerated list is
a walk in `G` from `s` to `t`. -/
theorem simplePathsAux_sound {G : GraphL} :
    ∀ {fuel s t : Nat} {visited p : List Nat},
      p ∈ simplePathsAux G fuel s t visited → G.hasNode s = true →
      p.head? = some s ∧ p.getLast? = some t ∧ IsWalkIn G p := by
  intro fuel
  induction fuel with
  | zero => intro s t visited p hp; simp [simplePathsAux] at hp
  | succ fuel ih =>
    intro s t visited p hp hs
    rw [simplePathsAux] at hp
    by_cases hst : s = t
    · subst hst
      simp at hp
      subst hp
      refine ⟨rfl, rfl, ?_, ?_⟩
      · simp
      · intro x hx; simp at hx; subst hx; exact hs
    · simp only [if_neg hst, List.mem_flatMap, List.mem_map, List.mem_filter] at hp
      obtain ⟨n, ⟨hn, _⟩, q, hq, rfl⟩ := hp
      obtain ⟨hnmem, hadj⟩ := neighbors_mem hn
      obtain ⟨hqh, hql, hqc, hqm⟩ := ih hq (hasNode_iff.mpr hnmem)
      obtain ⟨q0, qrest, rfl⟩ : ∃ q0 qrest, q = q0 :: qrest := by
        cases q with
        | nil => simp at hqh
        | cons a b => exact ⟨a, b, rfl⟩
      have hq0 : q0 = n := by simpa using hqh
      subst hq0
      refine ⟨rfl, ?_, ?_, ?_⟩
      · rw [List.getLast?_cons_cons]; exact hql
      · rw [List.chain'_cons']
        exact ⟨fun h hh => by simp at hh; subst hh; exact hadj, hqc⟩
      · intro x hx
        rcases List.mem_cons.mp hx with rfl | hx
        · exact hs
        · exact hqm x hx

theorem simplePaths_sound {G : GraphL} {s t : Nat} {p : List Nat}
    (hp : p ∈ simplePaths G s t) :
    p.head? = some s ∧ p.getLast? = some t ∧ IsWalkIn G p := by
  rw [simplePaths] at hp
  by_cases hg : G.hasNode s && G.hasNode t
  · rw [if_pos hg] at hp
    exact simplePathsAux_sound hp (by simpa using (Bool.and_eq_true _ _ |>.mp hg).1)
  · rw [if_neg hg] at hp; simp at hp

theorem allShortestPaths_subset {G : GraphL} {s t : Nat} {p : List Nat}
    (hp : p ∈ allShortestPaths G s t) : p ∈ simplePaths G s t := by
  rw [allShortestPaths] at hp
  rcases hmin : (List.map List.length (simplePaths G s t)).min? with _ | m <;>
    rw [hmin] at hp
  · simp at hp
  · exact (List.mem_filter.mp hp).1

theorem allShortestPaths_sound {G : GraphL} {s t : Nat} {p : List Nat}
    (hp : p ∈ allShortestPaths G s t) :
    p.head? = some s ∧ p.getLast? = some t ∧ IsWalkIn G p :=
  simplePaths_sound (allShortestPaths_subset hp)

theorem mem_vppList {G : GraphL} {vs : List Nat} {v : Nat} :
    v ∈ vppList G vs ↔
      ∃ pr ∈ combinations2 vs, ∃ p ∈ allShortestPaths G pr.1 pr.2, v ∈ p := by
  simp [vppList, List.mem_flatMap]

theorem vppList_subset_nodeList {G : GraphL} {vs : List Nat} {v : Nat}
    (h : v ∈ vppList G vs) : v ∈ G.nodeList := by
  obtain ⟨pr, _, p, hp, hv⟩ := mem_vppList.mp h
  exact hasNode_iff.mp ((allShortestPaths_sound hp).2.2.2 v hv)

theorem combinations2_mem {vs : List α} {pr : α × α} (h : pr ∈ combinations2 vs) :
    pr.1 ∈ vs ∧ pr.2 ∈ vs := by
  induction vs with
  | nil => simp [combinations2] at h
  | cons x xs ih =>
    rw [combinations2] at h
    rcases List.mem_append.mp h with h1 | h2
    · obtain ⟨y, hy, rfl⟩ := List.mem_map.mp h1
      exact ⟨by simp, by simp [hy]⟩
    · obtain ⟨h1, h2⟩ := ih h2
      exact ⟨by simp [h1], by simp [h2]⟩

theorem combinations2_pair {vs : List α} {i j : Nat} (hij : i < j) (hj : j < vs.length) :
    ∃ hi : i < vs.length,
      (vs.get ⟨i, hi⟩, vs.get ⟨j, hj⟩) ∈ combinations2 vs := by
  induction vs generalizing i j with
  | nil => simp at hj
  | cons x xs ih =>
    cases i with
    | zero =>
      refine ⟨by simp, ?_⟩
      rw [combinations2]
      apply List.mem_append.mpr
      left
      apply List.mem_map.mpr
      obtain ⟨j', rfl⟩ : ∃ j', j = j' + 1 := ⟨j - 1, by omega⟩
      exact ⟨xs.get ⟨j', by simpa using hj⟩, by simp, by simp⟩
    | succ i' =>
      obtain ⟨j', rfl⟩ : ∃ j', j = j' + 1 := ⟨j - 1, by omega⟩
      obtain ⟨hi', hmem⟩ := ih (show i' < j' by omega) (by simpa using hj)
      refine ⟨by simpa using hi', ?_⟩
      rw [combinations2]
      apply List.mem_append.mpr
      right
      simpa using hmem

theorem GraphL.adj_symm (G : GraphL) (u v : Nat) : G.adj u v = G.adj v u := by
  simp [GraphL.adj, Bool.or_comm]

theorem ReachableIn.refl {G : GraphL} {u : Nat} (h : G.hasNode u = true) :
    ReachableIn G u u :=
  ⟨[u], rfl, rfl, by simp [IsWalkIn], by intro x hx; simp at hx; subst hx; exact h⟩

theorem ReachableIn.symm {G : GraphL} {u v : Nat} (h : ReachableIn G u v) :
    ReachableIn G v u := by
  obtain ⟨p, hh, hl, hc, hm⟩ := h
  refine ⟨p.reverse, ?_, ?_, ?_, ?_⟩
  · rw [List.head?_reverse]; exact hl
  · rw [List.getLast?_reverse]; exact hh
  · rw [List.chain'_reverse]
    refine hc.imp fun a b hab => ?_
    show G.adj b a = true
    rw [G.adj_symm]; exact hab
  · intro x hx; exact hm x (List.mem_reverse.mp hx)

theorem ReachableIn.trans {G : GraphL} {u v w : Nat}
    (h1 : ReachableIn G u v) (h2 : ReachableIn G v w) : ReachableIn G u w := by
  obtain ⟨p, hph, hpl, hpc, hpm⟩ := h1
  obtain ⟨q, hqh, hql, hqc, hqm⟩ := h2
  obtain ⟨q0, qrest, rfl⟩ : ∃ q0 qrest, q = q0 :: qrest := by
    cases q with
    | nil => simp at hqh
    | cons a b => exact ⟨a, b, rfl⟩
  have hq0 : q0 = v := by simpa using hqh
  cases qrest with
  | nil =>
    have hwv : v = w := by
      rw [← hq0]
      simpa using hql
    rw [← hwv]
    exact ⟨p, hph, hpl, hpc, hpm⟩
  | cons q1 qrest' =>
    refine ⟨p ++ q1 :: qrest', ?_, ?_, ?_, ?_⟩
    · cases p with
      | nil => simp at hph
      | cons a b => simpa using hph
    · rw [List.getLast?_append]
      rw [List.getLast?_cons_cons] at hql
      simp [hql]
    · rw [List.chain'_append]
      refine ⟨hpc, (List.chain'_cons'.mp hqc).2, ?_⟩
      intro x hx y hy
      rw [hpl] at hx
      simp at hx hy
      subst hx
      subst hy
      have := (List.chain'_cons'.mp hqc).1 q1 (by simp)
      rw [hq0] at this
      exact this
    · intro x hx
      rcases List.mem_append.mp hx with hx | hx
      · exact hpm x hx
      · exact hqm x (by simp [hx])

theorem mem_nodeList_induced {G : GraphL} {S : List Nat} {v : Nat} :
    v ∈ (G.inducedSubgraph S).nodeList ↔ v ∈ G.nodeList ∧ v ∈ S := by
  constructor
  · intro h
    rcases List.mem_append.mp h with h | h
    · have := List.mem_filter.mp h
      exact ⟨this.1, by simpa using this.2⟩
    · obtain ⟨e, he, hv⟩ := List.mem_flatMap.mp h
      obtain ⟨heG, heS⟩ := List.mem_filter.mp he
      simp at hv
      have hS : v ∈ S := by
        rcases hv with rfl | rfl
        · simpa using (Bool.and_eq_true _ _ |>.mp heS).1
        · simpa using (Bool.and_eq_true _ _ |>.mp heS).2
      refine ⟨?_, hS⟩
      apply List.mem_append.mpr
      right
      apply List.mem_flatMap.mpr
      exact ⟨e, heG, by rcases hv with rfl | rfl <;> simp⟩
  · intro ⟨h1, h2⟩
    apply List.mem_append.mpr
    left
    exact List.mem_filter.mpr ⟨h1, by simpa using h2⟩

/-- A walk of `G` whose vertices all lie in `S` is a walk of the subgraph
induced on `S`. -/
theorem IsWalkIn.induced {G : GraphL} {S : List Nat} {p : List Nat}
    (hw : IsWalkIn G p) (hS : ∀ x ∈ p, x ∈ S) :
    IsWalkIn (G.inducedSubgraph S) p := by
  obtain ⟨hc, hm⟩ := hw
  constructor
  · induction p with
    | nil => simp
    | cons x xs ih =>
      rw [List.chain'_cons'] at hc ⊢
      refine ⟨?_, ih (fun a ha => hS a (List.mem_cons_of_mem x ha)) hc.2
        (fun a ha => hm a (List.mem_cons_of_mem x ha))⟩
      intro h hh
      have hxS : x ∈ S := hS x (by simp)
      cases xs with
      | nil => simp at hh
      | cons y ys =>
        simp at hh
        subst hh
        have hyS : y ∈ S := hS y (by simp)
        have hadj : G.adj x y = true := hc.1 y (by simp)
        rw [GraphL.adj] at hadj
        rcases Bool.or_eq_true _ _ |>.mp hadj with hxy | hyx
        · have : (x, y) ∈ G.edges := by simpa using hxy
          have : (x, y) ∈ (G.inducedSubgraph S).edges := by
            apply List.mem_filter.mpr
            exact ⟨this, by simp [hxS, hyS]⟩
          simp [GraphL.adj]
          left
          simpa using this
        · have : (y, x) ∈ G.edges := by simpa using hyx
          have : (y, x) ∈ (G.inducedSubgraph S).edges := by
            apply List.mem_filter.mpr
            exact ⟨this, by simp [hxS, hyS]⟩
          simp [GraphL.adj]
          right
          simpa using this
  · intro x hx
    exact hasNode_iff.mpr (mem_nodeList_induced.mpr ⟨hasNode_iff.mp (hm x hx), hS x hx⟩)

/-- Inside any graph, the head of a walk reaches every vertex of the walk. -/
theorem reach_of_mem_walk {H : GraphL} {p : List Nat} {s x : Nat}
    (hw : IsWalkIn H p) (hh : p.head? = some s) (hx : x ∈ p) :
    ReachableIn H s x := by
  obtain ⟨pre, post, rfl⟩ := List.append_of_mem hx
  refine ⟨pre ++ [x], ?_, List.getLast?_concat pre, ?_, ?_⟩
  · cases pre with
    | nil => simpa using hh
    | cons a b => simpa using hh
  · have hpref : (pre ++ [x]) <+: (pre ++ x :: post) := ⟨post, by simp⟩
    exact List.Chain'.prefix hw.1 hpref
  · intro a ha
    refine hw.2 a ?_
    rcases List.mem_append.mp ha with ha | ha
    · exact List.mem_append.mpr (Or.inl ha)
    · simp at ha; subst ha; simp

theorem ReachableIn.mem_src {H : GraphL} {u v : Nat} (h : ReachableIn H u v) :
    u ∈ H.nodeList := by
  obtain ⟨p, hh, _, _, hm⟩ := h
  exact hasNode_iff.mp (hm u (mem_of_head?_eq hh))

theorem ReachableIn.mem_dst {H : GraphL} {u v : Nat} (h : ReachableIn H u v) :
    v ∈ H.nodeList := by
  obtain ⟨p, _, hl, _, hm⟩ := h
  exact hasNode_iff.mp (hm v (mem_of_getLast?_eq hl))

theorem get_eq_of_val_eq {α : Type _} {vs : List α} (i j : Fin vs.length)
    (h : i.val = j.val) : vs.get i = vs.get j := by
  have hij : i = j := Fin.ext h
  rw [hij]

theorem exists_pair_endpoint {vs : List Nat} {v : Nat} (hlen : 2 ≤ vs.length)
    (hv : v ∈ vs) : ∃ pr ∈ combinations2 vs, pr.1 = v ∨ pr.2 = v := by
  obtain ⟨i, hi⟩ := List.get_of_mem hv
  by_cases h0 : i.val = 0
  · have h1 : 1 < vs.length := by omega
    obtain ⟨hi0, hmem⟩ := combinations2_pair (show 0 < 1 by omega) h1
    refine ⟨_, hmem, Or.inl ?_⟩
    rw [← hi]
    exact get_eq_of_val_eq _ _ (by simp [h0])
  · obtain ⟨hi0, hmem⟩ := combinations2_pair (show 0 < i.val by omega) i.isLt
    refine ⟨_, hmem, Or.inr ?_⟩
    rw [← hi]

/-- Every vertex of any shortest path between a 2-combination of `vs` lies
in the accumulated vertex set. -/
theorem subset_vppList {G : GraphL} {vs : List Nat} {pr : Nat × Nat}
    (hpr : pr ∈ combinations2 vs) {p : List Nat}
    (hp : p ∈ allShortestPaths G pr.1 pr.2) : ∀ x ∈ p, x ∈ vppList G vs :=
  fun x hx => mem_vppList.mpr ⟨pr, hpr, p, hp, hx⟩

/-- A vertex of the accumulated set reaches, inside the induced subgraph,
one of the members of `vs` its witnessing shortest path connects. -/
theorem vpp_reach_anchor {G : GraphL} {vs : List Nat} {u : Nat}
    (hu : u ∈ vppList G vs) :
    ∃ a ∈ vs, ReachableIn (G.inducedSubgraph (vppList G vs)) u a := by
  obtain ⟨pr, hpr, p, hp, hmem⟩ := mem_vppList.mp hu
  obtain ⟨hph, _, hwalk⟩ := allShortestPaths_sound hp
  have hwalkH := hwalk.induced (subset_vppList hpr hp)
  exact ⟨pr.1, (combinations2_mem hpr).1,
    (reach_of_mem_walk hwalkH hph hmem).symm⟩

/-- Under the pairwise-shortest-path hypothesis, the members of `vs`
present in the induced subgraph are all mutually reachable inside it. -/
theorem anchors_reach {G : GraphL} {vs : List Nat}
    (hdef : ∀ pr ∈ combinations2 vs, allShortestPaths G pr.1 pr.2 ≠ [])
    {a b : Nat} (ha : a ∈ vs) (hb : b ∈ vs)
    (haH : a ∈ (G.inducedSubgraph (vppList G vs)).nodeList) :
    ReachableIn (G.inducedSubgraph (vppList G vs)) a b := by
  obtain ⟨i, hi⟩ := List.get_of_mem ha
  obtain ⟨j, hj⟩ := List.get_of_mem hb
  have key : ∀ {x y : Nat} {pr : Nat × Nat}, pr ∈ combinations2 vs → pr.1 = x →
      pr.2 = y → ReachableIn (G.inducedSubgraph (vppList G vs)) x y := by
    intro x y pr hpr h1 h2
    obtain ⟨p, hp⟩ := List.exists_mem_of_ne_nil _ (hdef pr hpr)
    obtain ⟨hph, hpl, hwalk⟩ := allShortestPaths_sound hp
    have hwalkH := hwalk.induced (subset_vppList hpr hp)
    have := reach_of_mem_walk hwalkH hph (mem_of_getLast?_eq hpl)
    rw [h1, h2] at this
    exact this
  rcases Nat.lt_trichotomy i.val j.val with hij | hij | hij
  · obtain ⟨hi0, hmem⟩ := combinations2_pair hij j.isLt
    refine key hmem ?_ ?_
    · rw [← hi]
    · rw [← hj]
  · have hab : a = b := by
      rw [← hi, ← hj]; exact get_eq_of_val_eq _ _ hij
    subst hab
    exact ReachableIn.refl (hasNode_iff.mpr haH)
  · obtain ⟨hj0, hmem⟩ := combinations2_pair hij i.isLt
    refine (key hmem ?_ ?_).symm
    · rw [← hj]
    · rw [← hi]

/-! ### Claim C1 -/

/-- C1 (amended): for every graph `G` and vertex set `v_prime` that is not
a singleton and whose 2-combinations all have defined shortest paths,
`get_connected_subgraph` returns a connected subgraph whose vertex set is
a superset of `v_prime` and is exactly the union, over the pairs of
`v_prime`, of the vertices on their shortest paths.  (The original claim
also asserted this for singleton `v_prime`, where the code instead
returns the empty graph; see the counterexample.) -/
theorem C1_connected_subgraph_amended (G : GraphL) (vs : List Nat)
    (hlen : vs.length ≠ 1)
    (hdef : ∀ pr ∈ combinations2 vs, allShortestPaths G pr.1 pr.2 ≠ []) :
    (∀ v ∈ vs, v ∈ (get_connected_subgraph G vs).nodeList) ∧
    (get_connected_subgraph G vs).ConnectedG ∧
    (∀ v, v ∈ (get_connected_subgraph G vs).nodeList ↔ v ∈ vppList G vs) := by
  have hchar : ∀ v, v ∈ (get_connected_subgraph G vs).nodeList ↔ v ∈ vppList G vs := by
    intro v
    rw [get_connected_subgraph, mem_nodeList_induced]
    exact ⟨fun h => h.2, fun h => ⟨vppList_subset_nodeList h, h⟩⟩
  refine ⟨?_, ?_, hchar⟩
  · intro v hv
    have hlen2 : 2 ≤ vs.length := by
      rcases vs with _ | ⟨a, _ | ⟨b, rest⟩⟩
      · simp at hv
      · simp at hlen
      · simp
    obtain ⟨pr, hpr, hend⟩ := exists_pair_endpoint hlen2 hv
    obtain ⟨p, hp⟩ := List.exists_mem_of_ne_nil _ (hdef pr hpr)
    obtain ⟨hph, hpl, _⟩ := allShortestPaths_sound hp
    have hvp : v ∈ p := by
      rcases hend with h | h
      · rw [← h]; exact mem_of_head?_eq hph
      · rw [← h]; exact mem_of_getLast?_eq hpl
    exact (hchar v).mpr (mem_vppList.mpr ⟨pr, hpr, p, hp, hvp⟩)
  · intro u hu v hv
    have huv : u ∈ vppList G vs := (hchar u).mp hu
    have hvv : v ∈ vppList G vs := (hchar v).mp hv
    obtain ⟨a, haVs, hua⟩ := vpp_reach_anchor huv
    obtain ⟨b, hbVs, hvb⟩ := vpp_reach_anchor hvv
    exact (hua.trans (anchors_reach hdef haVs hbVs hua.mem_dst)).trans hvb.symm

/-- C1 counterexample: on the one-vertex graph with `v_prime = [0]` (all
pairwise shortest paths defined, vacuously), the vertex set returned by
`get_connected_subgraph` does not contain the member `0` of `v_prime`: the
result is the empty graph, so for singleton inputs the returned graph is
not a superset of `v_prime` as the claim states. -/
theorem C1_counterexample :
    (∀ pr ∈ combinations2 [0],
        allShortestPaths ⟨[0], []⟩ pr.1 pr.2 ≠ []) ∧
    0 ∈ [0] ∧
    0 ∉ (get_connected_subgraph ⟨[0], []⟩ [0]).nodeList := by
  refine ⟨?_, by simp, by decide⟩
  intro pr hpr
  simp [combinations2] at hpr

/-- C1 witness: the spec's own scenario — centrelines A(n1,n2), B(n2,n3)
as edges (1,2) and (2,3), requesting `{1, 3}` — satisfies the amended
theorem's hypotheses. -/
theorem C1_witness :
    ([1, 3] : List Nat).length ≠ 1 ∧
    ((∀ v ∈ [1, 3], v ∈ (get_connected_subgraph ⟨[], [(1, 2), (2, 3)]⟩ [1, 3]).nodeList) ∧
     (get_connected_subgraph ⟨[], [(1, 2), (2, 3)]⟩ [1, 3]).ConnectedG ∧
     (∀ v, v ∈ (get_connected_subgraph ⟨[], [(1, 2), (2, 3)]⟩ [1, 3]).nodeList ↔
        v ∈ vppList ⟨[], [(1, 2), (2, 3)]⟩ [1, 3])) :=
  ⟨by decide, C1_connected_subgraph_amended ⟨[], [(1, 2), (2, 3)]⟩ [1, 3]
    (by decide) (by decide)⟩

/-! ### Lemmas for the truncation bisection (claims C2 and C3) -/

theorem Seg.splitAtTime_forward {s : Seg} {t : ℚ} (hf : s.forward)
    (h0 : 0 ≤ t) (h1 : t ≤ 1) :
    (s.splitAtTime t).1.forward ∧ (s.splitAtTime t).2.forward := by
  unfold Seg.forward at hf
  unfold Seg.splitAtTime Seg.forward Seg.paramAt
  constructor
  · simp only
    nlinarith
  · simp only
    nlinarith

theorem bisectStart_sound (f : ℚ → ℚ) (innerSq outerSq : ℚ) :
    ∀ (fuel : Nat) {u v t : ℚ}, 0 ≤ u → v ≤ 1 → u ≤ v →
      bisectStart f innerSq outerSq fuel u v = some t →
      innerSq ≤ f t ∧ f t ≤ outerSq ∧ 0 ≤ t ∧ t ≤ 1 := by
  intro fuel
  induction fuel with
  | zero => intro u v t _ _ _ h; simp [bisectStart] at h
  | succ fuel ih =>
    intro u v t hu hv huv h
    simp only [bisectStart] at h
    by_cases h1 : f ((u + v) / 2) > outerSq
    · rw [if_pos h1] at h
      exact ih hu (by linarith) (by linarith) h
    · rw [if_neg h1] at h
      by_cases h2 : f ((u + v) / 2) < innerSq
      · rw [if_pos h2] at h
        exact ih (by linarith) hv (by linarith) h
      · rw [if_neg h2] at h
        have ht : (u + v) / 2 = t := Option.some.inj h
        rw [← ht]
        exact ⟨le_of_not_lt h2, le_of_not_lt h1, by linarith, by linarith⟩

theorem bisectEnd_sound (f : ℚ → ℚ) (innerSq outerSq : ℚ) :
    ∀ (fuel : Nat) {u v t : ℚ}, 0 ≤ u → v ≤ 1 → u ≤ v →
      bisectEnd f innerSq outerSq fuel u v = some t →
      innerSq ≤ f t ∧ f t ≤ outerSq ∧ 0 ≤ t ∧ t ≤ 1 := by
  intro fuel
  induction fuel with
  | zero => intro u v t _ _ _ h; simp [bisectEnd] at h
  | succ fuel ih =>
    intro u v t hu hv huv h
    simp only [bisectEnd] at h
    by_cases h1 : f ((u + v) / 2) > outerSq
    · rw [if_pos h1] at h
      exact ih (by linarith) hv (by linarith) h
    · rw [if_neg h1] at h
      by_cases h2 : f ((u + v) / 2) < innerSq
      · rw [if_pos h2] at h
        exact ih hu (by linarith) (by linarith) h
      · rw [if_neg h2] at h
        have ht : (u + v) / 2 = t := Option.some.inj h
        rw [← ht]
        exact ⟨le_of_not_lt h2, le_of_not_lt h1, by linarith, by linarith⟩

theorem truncate_segments_start_forward {centre : Pt} {innerR outerR : ℚ}
    {fuel : Nat} {segs out : List Seg} (hfwd : ∀ s ∈ segs, s.forward)
    (h : truncate_segments_start centre innerR outerR fuel segs = some out) :
    ∀ s ∈ out, s.forward := by
  cases segs with
  | nil => simp [truncate_segments_start] at h
  | cons s0 rest =>
    rw [truncate_segments_start] at h
    split at h
    · obtain rfl := Option.some.inj h
      exact hfwd
    · dsimp only at h
      split at h
      · split at h
        · exact absurd h (by simp)
        · next t heq =>
          obtain rfl := Option.some.inj h
          intro s hs
          rcases List.mem_cons.mp hs with rfl | hs
          · obtain ⟨_, _, h0t, ht1⟩ :=
              bisectStart_sound _ _ _ fuel le_rfl le_rfl (by norm_num) heq
            exact (Seg.splitAtTime_forward (hfwd _ (List.get_mem _ _ _)) h0t ht1).2
          · exact hfwd s (List.mem_of_mem_drop hs)
      · obtain rfl := Option.some.inj h
        exact hfwd

theorem truncate_segments_end_forward {centre : Pt} {innerR outerR : ℚ}
    {fuel : Nat} {segs out : List Seg} (hfwd : ∀ s ∈ segs, s.forward)
    (h : truncate_segments_end centre innerR outerR fuel segs = some out) :
    ∀ s ∈ out, s.forward := by
  cases segs with
  | nil => simp [truncate_segments_end] at h
  | cons s0 rest =>
    rw [truncate_segments_end] at h
    split at h
    · obtain rfl := Option.some.inj h
      exact hfwd
    · dsimp only at h
      split at h
      · split at h
        · exact absurd h (by simp)
        · next t heq =>
          obtain rfl := Option.some.inj h
          intro s hs
          rcases List.mem_append.mp hs with hs | hs
          · exact hfwd s (List.mem_of_mem_take hs)
          · obtain rfl := List.mem_singleton.mp hs
            obtain ⟨_, _, h0t, ht1⟩ :=
              bisectEnd_sound _ _ _ fuel le_rfl le_rfl (by norm_num) heq
            exact (Seg.splitAtTime_forward (hfwd _ (List.get_mem _ _ _)) h0t ht1).1
      · obtain rfl := Option.some.inj h
        exact hfwd

/-! ### Claim C2 -/

/-- C2: whenever the junction-truncation bisection finds a split parameter
`t`, the point at `t` lies between the inner and outer radii (stated with
squared distances, equivalent for non-negative radii), `t` lies in
`[0, 1]`, and the truncated segment lists returned by
`truncate_segments_start` and `truncate_segments_end` never contain a
negative-length (reversed-parameter) curve. -/
theorem C2_truncation_band_and_no_reversed_curve :
    (∀ (f : ℚ → ℚ) (innerSq outerSq : ℚ) (fuel : Nat) (u v t : ℚ),
        0 ≤ u → v ≤ 1 → u ≤ v →
        bisectStart f innerSq outerSq fuel u v = some t →
        innerSq ≤ f t ∧ f t ≤ outerSq ∧ 0 ≤ t ∧ t ≤ 1) ∧
    (∀ (f : ℚ → ℚ) (innerSq outerSq : ℚ) (fuel : Nat) (u v t : ℚ),
        0 ≤ u → v ≤ 1 → u ≤ v →
        bisectEnd f innerSq outerSq fuel u v = some t →
        innerSq ≤ f t ∧ f t ≤ outerSq ∧ 0 ≤ t ∧ t ≤ 1) ∧
    (∀ (centre : Pt) (innerR outerR : ℚ) (fuel : Nat) (segs out : List Seg),
        (∀ s ∈ segs, s.forward) →
        truncate_segments_start centre innerR outerR fuel segs = some out →
        ∀ s ∈ out, s.forward) ∧
    (∀ (centre : Pt) (innerR outerR : ℚ) (fuel : Nat) (segs out : List Seg),
        (∀ s ∈ segs, s.forward) →
        truncate_segments_end centre innerR outerR fuel segs = some out →
        ∀ s ∈ out, s.forward) :=
  ⟨fun f iSq oSq fuel u v t hu hv huv h => bisectStart_sound f iSq oSq fuel hu hv huv h,
   fun f iSq oSq fuel u v t hu hv huv h => bisectEnd_sound f iSq oSq fuel hu hv huv h,
   fun _ _ _ _ _ _ hfwd h => truncate_segments_start_forward hfwd h,
   fun _ _ _ _ _ _ hfwd h => truncate_segments_end_forward hfwd h⟩

/-- C2 witness: on the straight segment from `(1/2, 0)` to `(3, 0)` with
centre the origin and radii `(1, 2)`, the bisection returns `t = 1/2` in
one step and the truncated list is forward. -/
theorem C2_witness :
    ((0 : ℚ) ≤ 0 ∧ (1 : ℚ) ≤ 1 ∧ (0 : ℚ) ≤ 1 ∧
      bisectStart w2f (1 ^ 2) (2 ^ 2) 1 0 1 = some ((0 + 1) / 2)) ∧
    ((1 : ℚ) ^ 2 ≤ w2f ((0 + 1) / 2) ∧ w2f ((0 + 1) / 2) ≤ (2 : ℚ) ^ 2 ∧
      (0 : ℚ) ≤ (0 + 1) / 2 ∧ ((0 + 1) / 2 : ℚ) ≤ 1) ∧
    (∀ s ∈ [w2Seg], s.forward) ∧
    (∀ s ∈ [(w2Seg.splitAtTime ((0 + 1) / 2)).2], s.forward) := by
  have hb : bisectStart w2f (1 ^ 2) (2 ^ 2) 1 0 1 = some ((0 + 1) / 2) := by
    norm_num [bisectStart, w2f, w2Seg, sqDist, Seg.pointAtTime, Seg.paramAt]
  have hfwd : ∀ s ∈ [w2Seg], s.forward := by
    intro s hs
    obtain rfl := List.mem_singleton.mp hs
    show (0 : ℚ) ≤ 1
    norm_num
  have htr : truncate_segments_start (0, 0) 1 2 1 [w2Seg] =
      some [(w2Seg.splitAtTime ((0 + 1) / 2)).2] := by
    norm_num [truncate_segments_start, skipEndInside, bisectStart, w2Seg, sqDist,
      Seg.pointAtTime, Seg.paramAt, Seg.startPoint, Seg.endPoint, Seg.splitAtTime]
  exact ⟨⟨le_rfl, le_rfl, by norm_num, hb⟩,
    C2_truncation_band_and_no_reversed_curve.1 w2f (1 ^ 2) (2 ^ 2) 1 0 1
      ((0 + 1) / 2) le_rfl le_rfl (by norm_num) hb,
    hfwd,
    C2_truncation_band_and_no_reversed_curve.2.2.1 (0, 0) 1 2 1 [w2Seg]
      [(w2Seg.splitAtTime ((0 + 1) / 2)).2] hfwd htr⟩

/-! ### Claim C4 -/

theorem foldSelect_fixed (score : Nat → ℚ) :
    ∀ (cls : List Nat) (acc : Option Nat × ℚ),
      (∀ c ∈ cls, ¬ acc.2 < score c) →
      cls.foldl (selectStep score) acc = acc := by
  intro cls
  induction cls with
  | nil => intro acc _; rfl
  | cons cl rest ih =>
    intro acc hno
    rw [List.foldl_cons]
    have hstep : selectStep score acc cl = acc := by
      simp [selectStep, hno cl (by simp)]
    rw [hstep]
    exact ih acc fun c hc => hno c (by simp [hc])

/-- The fold of `selectStep` picks the first element attaining the maximal
score, provided some element beats the initial running maximum. -/
theorem foldSelect_spec (score : Nat → ℚ) :
    ∀ (cls : List Nat) (mc : Option Nat) (ms : ℚ),
      (∃ c ∈ cls, ms < score c) →
      ∃ m pre post,
        cls.foldl (selectStep score) (mc, ms) = (some m, score m) ∧
        cls = pre ++ m :: post ∧
        (∀ c ∈ pre, score c < score m) ∧
        (∀ c ∈ cls, score c ≤ score m) ∧
        ms < score m := by
  intro cls
  induction cls with
  | nil => intro mc ms h; simp at h
  | cons cl rest ih =>
    intro mc ms hex
    rw [List.foldl_cons]
    by_cases hcl : ms < score cl
    · have hstep : selectStep score (mc, ms) cl = (some cl, score cl) := by
        simp [selectStep, hcl]
      rw [hstep]
      by_cases himp : ∃ c ∈ rest, score cl < score c
      · obtain ⟨m, pre, post, heq, hsplit, hpre, hall, hlt⟩ :=
          ih (some cl) (score cl) himp
        refine ⟨m, cl :: pre, post, heq, by rw [hsplit]; rfl, ?_, ?_, ?_⟩
        · intro c hc
          rcases List.mem_cons.mp hc with rfl | hc
          · exact hlt
          · exact hpre c hc
        · intro c hc
          rcases List.mem_cons.mp hc with rfl | hc
          · exact le_of_lt hlt
          · exact hall c hc
        · exact lt_trans hcl hlt
      · push_neg at himp
        have hfix : rest.foldl (selectStep score) (some cl, score cl) =
            (some cl, score cl) :=
          foldSelect_fixed score rest _ fun c hc => not_lt.mpr (himp c hc)
        refine ⟨cl, [], rest, hfix, rfl, by simp, ?_, hcl⟩
        intro c hc
        rcases List.mem_cons.mp hc with rfl | hc
        · exact le_rfl
        · exact himp c hc
    · have hstep : selectStep score (mc, ms) cl = (mc, ms) := by
        simp [selectStep, hcl]
      rw [hstep]
      have hex2 : ∃ c ∈ rest, ms < score c := by
        obtain ⟨c, hc, hsc⟩ := hex
        rcases List.mem_cons.mp hc with rfl | hc
        · exact absurd hsc hcl
        · exact ⟨c, hc, hsc⟩
      obtain ⟨m, pre, post, heq, hsplit, hpre, hall, hlt⟩ := ih mc ms hex2
      refine ⟨m, cl :: pre, post, heq, by rw [hsplit]; rfl, ?_, ?_, hlt⟩
      · intro c hc
        rcases List.mem_cons.mp hc with rfl | hc
        · exact lt_of_le_of_lt (not_lt.mp hcl) hlt
        · exact hpre c hc
      · intro c hc
        rcases List.mem_cons.mp hc with rfl | hc
        · exact le_of_lt (lt_of_le_of_lt (not_lt.mp hcl) hlt)
        · exact hall c hc

/-- Every centreline of a feature that occurs in `container_features`
receives at least one count from that very feature. -/
theorem centrelineFeatureCount_pos {contained : Nat → List Nat}
    {containerFeatures : List (Nat × Nat)} {node featureId cl : Nat}
    (hmem : (node, featureId) ∈ containerFeatures)
    (hcl : cl ∈ contained featureId) :
    0 < centrelineFeatureCount contained containerFeatures cl := by
  unfold centrelineFeatureCount
  have hx : (contained featureId).count cl ∈
      containerFeatures.map fun nf => (contained nf.2).count cl :=
    List.mem_map.mpr ⟨(node, featureId), hmem, rfl⟩
  have h1 : 0 < (contained featureId).count cl :=
    List.count_pos_iff.mpr hcl
  calc 0 < (contained featureId).count cl := h1
    _ ≤ _ := List.single_le_sum (fun x _ => Nat.zero_le x) _ hx

/-- C4: for a connectivity node resolving to a feature that contains
centrelines, the loop of `route_graph_from_connectivity` selects a
centreline maximizing score = component count / total containing-feature
count, ties broken by the first centreline found in the feature's list. -/
theorem C4_centreline_score_selection (contained : Nat → List Nat)
    (containedCount : Nat → Nat) (containerFeatures : List (Nat × Nat))
    (node featureId : Nat)
    (hmem : (node, featureId) ∈ containerFeatures)
    (hpos : ∀ cl ∈ contained featureId, 0 < containedCount cl)
    (hne : contained featureId ≠ []) :
    ∃ m, m ∈ contained featureId ∧
      (selectMaxCentreline
        (centrelineScore contained containedCount containerFeatures)
        (contained featureId)).1 = some m ∧
      (∀ cl ∈ contained featureId,
        centrelineScore contained containedCount containerFeatures cl ≤
        centrelineScore contained containedCount containerFeatures m) ∧
      ∃ pre post, contained featureId = pre ++ m :: post ∧
        ∀ cl ∈ pre,
          centrelineScore contained containedCount containerFeatures cl <
          centrelineScore contained containedCount containerFeatures m := by
  obtain ⟨c0, hc0⟩ := List.exists_mem_of_ne_nil _ hne
  have hscore : 0 <
      centrelineScore contained containedCount containerFeatures c0 := by
    unfold centrelineScore
    apply div_pos
    · exact_mod_cast centrelineFeatureCount_pos hmem hc0
    · exact_mod_cast hpos c0 hc0
  obtain ⟨m, pre, post, heq, hsplit, hpre, hall, _⟩ :=
    foldSelect_spec _ (contained featureId) none 0 ⟨c0, hc0, hscore⟩
  have hm : m ∈ contained featureId := by rw [hsplit]; simp
  refine ⟨m, hm, ?_, hall, pre, post, hsplit, hpre⟩
  unfold selectMaxCentreline
  rw [heq]

/-- C4 witness: the spec's scenario — feature F (id 10) contains X (id 0,
3 total containing features) and Y (id 1, 1 total containing feature),
with equal component counts — selects Y, not X. -/
theorem C4_witness :
    ((5, 10) ∈ [((5 : Nat), (10 : Nat))] ∧
     (∀ cl ∈ w4Contained 10, 0 < w4Count cl) ∧
     w4Contained 10 ≠ []) ∧
    (∃ m, m ∈ w4Contained 10 ∧
      (selectMaxCentreline (centrelineScore w4Contained w4Count [(5, 10)])
        (w4Contained 10)).1 = some m ∧
      (∀ cl ∈ w4Contained 10,
        centrelineScore w4Contained w4Count [(5, 10)] cl ≤
        centrelineScore w4Contained w4Count [(5, 10)] m) ∧
      ∃ pre post, w4Contained 10 = pre ++ m :: post ∧
        ∀ cl ∈ pre,
          centrelineScore w4Contained w4Count [(5, 10)] cl <
          centrelineScore w4Contained w4Count [(5, 10)] m) ∧
    (selectMaxCentreline (centrelineScore w4Contained w4Count [(5, 10)])
      (w4Contained 10)).1 = some 1 :=
  ⟨⟨by simp, by decide, by decide⟩,
   C4_centreline_score_selection w4Contained w4Count [(5, 10)] 5 10
     (by simp) (by decide) (by decide),
   by norm_num [selectMaxCentreline, selectStep, centrelineScore,
     centrelineFeatureCount, w4Contained, w4Count]⟩

/-! ### Claim C5 -/

/-- C5: `edge_dict['path-components'] = path_components` executes outside
the feature-resolved branch.  On a two-edge network whose second edge's
feature is unresolved, the second edge is assigned the first edge's path
components (here `computeComps e = [e.id]`, so edge 2 stores `[1]`, not
`[2]`); and when the very first edge is unresolved the loop raises
`UnboundLocalError`. -/
theorem C5_path_components_stale :
    assignPathComponents (fun e => [e.id])
        [⟨1, true, true⟩, ⟨2, false, true⟩] none =
      .ok [(1, [1]), (2, [1])] ∧
    ([1] : List Nat) ≠ [2] ∧
    assignPathComponents (fun e => [e.id]) [⟨2, false, true⟩] none =
      .error "UnboundLocalError: path_components" :=
  ⟨rfl, by decide, rfl⟩

/-! ### Claim C8 -/

/-- C8 (amended): on a list-form route request, constructing a `Route`
raises exactly when parsing the node list fails (empty list or a
malformed identifier) or the parsed list has fewer than two entries.
(For list input the parsed list always has at least two entries — a
one-entry request is duplicated into first and last — so in practice only
the parse failures raise.) -/
theorem C8_route_init_error_iff (parseId : String → Option String)
    (pathId : String) (route : List RouteEntry) :
    (∃ e, Route_init parseId pathId route = .error e) ↔
      ((∃ e, parse_route_nodes parseId route = .error e) ∨
       (∃ l, parse_route_nodes parseId route = .ok l ∧ l.length < 2)) := by
  unfold Route_init
  cases hp : parse_route_nodes parseId route with
  | error e => simp [hp]
  | ok l =>
    by_cases hl : l.length < 2
    · simp [hp, hl]
    · simp [hp, hl]

/-- C8 counterexample: the empty route request raises (`IndexError` while
parsing, before any length check), yet there is no parsed node list with
fewer than two entries — so "raises iff the parsed route node list has
fewer than 2 endpoint entries" is false, and conditions other than the
length check do raise.  Moreover a one-entry request does not raise at
all: its single entry is parsed into both the first and last slots. -/
theorem C8_counterexample :
    (∃ e, Route_init (fun s => some s) "p1" [] = .error e) ∧
    (¬ ∃ l, parse_route_nodes (fun s => some s) [] = .ok l ∧ l.length < 2) ∧
    Route_init (fun s => some s) "p1" [.single "n1"] =
      .ok ⟨["n1"], [], ["n1"]⟩ := by
  refine ⟨⟨"IndexError: node_ids[0]", rfl⟩, ?_, rfl⟩
  rintro ⟨l, hl, _⟩
  simp [parse_route_nodes] at hl

/-! ### Claim C10 -/

/-- C10: `node_width_along_line` is total — it returns the distance
between the two boundary points exactly when the probe line intersects
the feature and the boundary intersection is a `MultiPoint` of exactly
two points, and in every other case it logs an error and returns width
`0` (so the caller still emits its Intermediate-Node marker, with width
0). -/
theorem C10_node_width_characterization (dist : Pt → Pt → ℚ) (geom : IGeom)
    (point dirn : Pt) :
    (∃ p1 p2,
        geom.intersectsLine (probeLine dist geom point dirn) = true ∧
        geom.boundaryIntersection (probeLine dist geom point dirn) =
          .multi [p1, p2] ∧
        node_width_along_line dist geom point dirn = (dist p1 p2, false)) ∨
    (node_width_along_line dist geom point dirn = (0, true) ∧
      ¬ ∃ p1 p2,
        geom.intersectsLine (probeLine dist geom point dirn) = true ∧
        geom.boundaryIntersection (probeLine dist geom point dirn) =
          .multi [p1, p2]) := by
  unfold node_width_along_line
  dsimp only
  by_cases hi : geom.intersectsLine (probeLine dist geom point dirn) = true
  · rw [if_pos hi]
    cases hb : geom.boundaryIntersection (probeLine dist geom point dirn) with
    | single p =>
      refine Or.inr ⟨rfl, ?_⟩
      rintro ⟨q1, q2, _, hb2⟩
      simp at hb2
    | other =>
      refine Or.inr ⟨rfl, ?_⟩
      rintro ⟨q1, q2, _, hb2⟩
      simp at hb2
    | multi ps =>
      rcases ps with _ | ⟨p1, _ | ⟨p2, _ | ⟨p3, rest⟩⟩⟩
      · refine Or.inr ⟨rfl, ?_⟩
        rintro ⟨q1, q2, _, hb2⟩
        simp at hb2
      · refine Or.inr ⟨rfl, ?_⟩
        rintro ⟨q1, q2, _, hb2⟩
        simp at hb2
      · exact Or.inl ⟨p1, p2, hi, rfl, rfl⟩
      · refine Or.inr ⟨rfl, ?_⟩
        rintro ⟨q1, q2, _, hb2⟩
        simp at hb2
  · rw [if_neg hi]
    refine Or.inr ⟨rfl, ?_⟩
    rintro ⟨q1, q2, hi2, _⟩
    exact hi hi2

/-! ### Lemmas for the network construction (claims C6 and C7) -/

theorem edgeKeys_cons (a b : Nat) (q : EdgeProps)
    (rest : List (Nat × Nat × EdgeProps)) :
    edgeKeys ((a, b, q) :: rest) = pkey a b :: edgeKeys rest := rfl

theorem pkey_eq_iff {u v a b : Nat} :
    pkey u v = pkey a b ↔ (a = u ∧ b = v) ∨ (a = v ∧ b = u) := by
  unfold pkey
  split <;> split <;> simp [Prod.ext_iff] <;> omega

theorem addEdgeNX_keys_mem (u v : Nat) (p : EdgeProps) :
    ∀ edges : List (Nat × Nat × EdgeProps), pkey u v ∈ edgeKeys edges →
      edgeKeys (addEdgeNX edges u v p) = edgeKeys edges := by
  intro edges
  induction edges with
  | nil => intro h; simp [edgeKeys] at h
  | cons e rest ih =>
    obtain ⟨a, b, q⟩ := e
    intro hmem
    rw [addEdgeNX]
    by_cases hcond : (a = u ∧ b = v) ∨ (a = v ∧ b = u)
    · rw [if_pos hcond, edgeKeys_cons, edgeKeys_cons]
    · rw [if_neg hcond, edgeKeys_cons, edgeKeys_cons]
      rw [edgeKeys_cons] at hmem
      rcases List.mem_cons.mp hmem with heq | hmem2
      · exact absurd (pkey_eq_iff.mp heq) hcond
      · rw [ih hmem2]

theorem addEdgeNX_keys_notmem (u v : Nat) (p : EdgeProps) :
    ∀ edges : List (Nat × Nat × EdgeProps), pkey u v ∉ edgeKeys edges →
      edgeKeys (addEdgeNX edges u v p) = edgeKeys edges ++ [pkey u v] := by
  intro edges
  induction edges with
  | nil => intro _; rfl
  | cons e rest ih =>
    obtain ⟨a, b, q⟩ := e
    intro hmem
    rw [addEdgeNX]
    by_cases hcond : (a = u ∧ b = v) ∨ (a = v ∧ b = u)
    · exfalso
      apply hmem
      rw [edgeKeys_cons]
      exact List.mem_cons.mpr (Or.inl (pkey_eq_iff.mpr hcond))
    · have hmem2 : pkey u v ∉ edgeKeys rest := by
        intro h
        apply hmem
        rw [edgeKeys_cons]
        exact List.mem_cons.mpr (Or.inr h)
      rw [if_neg hcond, edgeKeys_cons, edgeKeys_cons, ih hmem2]
      rfl

theorem accepted_eq (isNerve : Nat → Bool) (st : NetworkState)
    {c : Centreline} {cid : Nat} (hid : c.id? = some cid)
    (hfresh : cid ∉ st.centrelineIds) (hlen : 2 ≤ c.connects.length) :
    (processCentreline isNerve st c).centrelineIds = st.centrelineIds ++ [cid] ∧
    (processCentreline isNerve st c).containedCount =
      st.containedCount ++ [(cid, c.containedIn.dedup.length)] ∧
    (processCentreline isNerve st c).containedCentrelines =
      c.containedIn.dedup.foldl (fun m f => assocAppend m f cid)
        st.containedCentrelines ∧
    ∃ p : EdgeProps, (processCentreline isNerve st c).edges =
      addEdgeNX st.edges (c.connects.headD 0) (c.connects.getLastD 0) p := by
  unfold processCentreline
  rw [hid]
  dsimp only
  rw [if_neg hfresh, if_neg (by omega)]
  exact ⟨rfl, rfl, rfl, _, rfl⟩

theorem ValidDecls_tail (isNerve : Nat → Bool) {c : Centreline}
    {rest : List Centreline} {st : NetworkState}
    (hv : ValidDecls (c :: rest) st) :
    ValidDecls rest (processCentreline isNerve st c) := by
  obtain ⟨hids, hlens, hnodup, hfresh⟩ := hv
  obtain ⟨cid, hcid⟩ := Option.isSome_iff_exists.mp (hids c (by simp))
  have hidOf : c.idOf = cid := by simp [Centreline.idOf, hcid]
  have hfr : cid ∉ st.centrelineIds := by
    rw [← hidOf]; exact hfresh c (by simp)
  obtain ⟨hid1, _, _, _⟩ := accepted_eq isNerve st hcid hfr (hlens c (by simp))
  rw [List.map_cons] at hnodup
  have hnodup2 := List.nodup_cons.mp hnodup
  refine ⟨fun c2 hc2 => hids c2 (by simp [hc2]),
    fun c2 hc2 => hlens c2 (by simp [hc2]), hnodup2.2, ?_⟩
  intro c2 hc2
  rw [hid1]
  simp only [List.mem_append, List.mem_singleton]
  rintro (h | h)
  · exact hfresh c2 (by simp [hc2]) h
  · refine hnodup2.1 ?_
    rw [hidOf, ← h]
    exact List.mem_map.mpr ⟨c2, hc2, rfl⟩

theorem foldNetwork_centrelineIds (isNerve : Nat → Bool) :
    ∀ (cs : List Centreline) (st : NetworkState), ValidDecls cs st →
      (cs.foldl (processCentreline isNerve) st).centrelineIds =
        st.centrelineIds ++ cs.map Centreline.idOf := by
  intro cs
  induction cs with
  | nil => intro st _; simp
  | cons c rest ih =>
    intro st hv
    obtain ⟨cid, hcid⟩ := Option.isSome_iff_exists.mp (hv.1 c (by simp))
    have hidOf : c.idOf = cid := by simp [Centreline.idOf, hcid]
    have hfr : cid ∉ st.centrelineIds := by
      rw [← hidOf]; exact hv.2.2.2 c (by simp)
    obtain ⟨hid1, _, _, _⟩ := accepted_eq isNerve st hcid hfr (hv.2.1 c (by simp))
    rw [List.foldl_cons, ih _ (ValidDecls_tail isNerve hv), hid1]
    simp [hidOf]

theorem foldNetwork_edgeKeys (isNerve : Nat → Bool) :
    ∀ (cs : List Centreline) (st : NetworkState), ValidDecls cs st →
      (edgeKeys st.edges).Nodup →
      (edgeKeys (cs.foldl (processCentreline isNerve) st).edges).Nodup ∧
      (∀ k, k ∈ edgeKeys (cs.foldl (processCentreline isNerve) st).edges ↔
        k ∈ edgeKeys st.edges ∨ k ∈ cs.map Centreline.key) := by
  intro cs
  induction cs with
  | nil => intro st _ hnd; exact ⟨hnd, by simp⟩
  | cons c rest ih =>
    intro st hv hnd
    obtain ⟨cid, hcid⟩ := Option.isSome_iff_exists.mp (hv.1 c (by simp))
    have hfr : cid ∉ st.centrelineIds := by
      have := hv.2.2.2 c (by simp)
      simpa [Centreline.idOf, hcid] using this
    obtain ⟨_, _, _, p, hedges⟩ := accepted_eq isNerve st hcid hfr
      (hv.2.1 c (by simp))
    rw [List.foldl_cons]
    by_cases hk : Centreline.key c ∈ edgeKeys st.edges
    · have hkeys : edgeKeys (processCentreline isNerve st c).edges =
          edgeKeys st.edges := by
        rw [hedges]
        exact addEdgeNX_keys_mem _ _ p _ hk
      obtain ⟨hnd2, hmem2⟩ := ih _ (ValidDecls_tail isNerve hv)
        (by rw [hkeys]; exact hnd)
      refine ⟨hnd2, fun k => ?_⟩
      rw [hmem2 k, hkeys, List.map_cons]
      constructor
      · rintro (h | h)
        · exact Or.inl h
        · exact Or.inr (List.mem_cons.mpr (Or.inr h))
      · rintro (h | h)
        · exact Or.inl h
        · rcases List.mem_cons.mp h with rfl | h2
          · exact Or.inl hk
          · exact Or.inr h2
    · have hkeys : edgeKeys (processCentreline isNerve st c).edges =
          edgeKeys st.edges ++ [Centreline.key c] := by
        rw [hedges]
        exact addEdgeNX_keys_notmem _ _ p _ hk
      have hnd1 : (edgeKeys (processCentreline isNerve st c).edges).Nodup := by
        rw [hkeys, List.nodup_append]
        exact ⟨hnd, List.nodup_singleton _, by
          intro x hx hx2
          simp at hx2
          subst hx2
          exact hk hx⟩
      obtain ⟨hnd2, hmem2⟩ := ih _ (ValidDecls_tail isNerve hv) hnd1
      refine ⟨hnd2, fun k => ?_⟩
      rw [hmem2 k, hkeys, List.map_cons]
      simp only [List.mem_append, List.mem_singleton, List.mem_cons]
      tauto

theorem foldNetwork_containedCount (isNerve : Nat → Bool) :
    ∀ (cs : List Centreline) (st : NetworkState), ValidDecls cs st →
      (cs.foldl (processCentreline isNerve) st).containedCount =
        st.containedCount ++
          cs.map fun c => (c.idOf, c.containedIn.dedup.length) := by
  intro cs
  induction cs with
  | nil => intro st _; simp
  | cons c rest ih =>
    intro st hv
    obtain ⟨cid, hcid⟩ := Option.isSome_iff_exists.mp (hv.1 c (by simp))
    have hidOf : c.idOf = cid := by simp [Centreline.idOf, hcid]
    have hfr : cid ∉ st.centrelineIds := by
      rw [← hidOf]; exact hv.2.2.2 c (by simp)
    obtain ⟨_, hcnt, _, _⟩ := accepted_eq isNerve st hcid hfr (hv.2.1 c (by simp))
    rw [List.foldl_cons, ih _ (ValidDecls_tail isNerve hv), hcnt]
    simp [hidOf]

theorem lookupA_eq_of_mem_nodup {α : Type _} :
    ∀ (l : List (Nat × α)), (l.map Prod.fst).Nodup →
      ∀ {k : Nat} {v : α}, (k, v) ∈ l → lookupA l k = some v := by
  intro l
  induction l with
  | nil => intro _ k v h; simp at h
  | cons p rest ih =>
    obtain ⟨k0, v0⟩ := p
    intro hnd k v hmem
    rw [List.map_cons] at hnd
    have hnd2 := List.nodup_cons.mp hnd
    rw [lookupA]
    by_cases hk : k0 = k
    · rw [if_pos hk]
      rcases List.mem_cons.mp hmem with heq | hmem2
      · simp at heq
        rw [heq.2]
      · exfalso
        apply hnd2.1
        rw [hk]
        exact List.mem_map.mpr ⟨(k, v), hmem2, rfl⟩
    · rw [if_neg hk]
      rcases List.mem_cons.mp hmem with heq | hmem2
      · exfalso
        apply hk
        simpa using congrArg Prod.fst heq |>.symm
      · exact ih hnd2.2 hmem2

theorem lookupList_assocAppend (m : List (Nat × List Nat)) (key val k : Nat) :
    lookupList (assocAppend m key val) k =
      if k = key then lookupList m k ++ [val] else lookupList m k := by
  induction m with
  | nil =>
    by_cases hk : k = key
    · subst hk
      simp [assocAppend, lookupList, lookupA]
    · rw [if_neg hk]
      simp [assocAppend, lookupList, lookupA]
      rw [if_neg (fun h => hk h.symm)]
      rfl
  | cons p rest ih =>
    obtain ⟨k0, vs⟩ := p
    rw [assocAppend]
    by_cases h0 : k0 = key
    · rw [if_pos h0]
      by_cases hk : k = key
      · subst hk
        rw [if_pos rfl]
        simp [lookupList, lookupA, h0]
      · rw [if_neg hk]
        have hk0 : ¬ (k0 = k) := fun h => hk (h0 ▸ h.symm)
        simp [lookupList, lookupA, hk0]
    · rw [if_neg h0]
      by_cases h0k : k0 = k
      · have hk : ¬ (k = key) := fun h => h0 (h0k.trans h)
        rw [if_neg hk]
        simp [lookupList, lookupA, h0k]
      · simp only [lookupList, lookupA, if_neg h0k]
        exact ih

theorem lookupList_foldAppend (cid : Nat) :
    ∀ (fs : List Nat) (m : List (Nat × List Nat)) (k x : Nat),
      (x ∈ lookupList (fs.foldl (fun m2 f => assocAppend m2 f cid) m) k ↔
        x ∈ lookupList m k ∨ (k ∈ fs ∧ x = cid)) := by
  intro fs
  induction fs with
  | nil => intro m k x; simp
  | cons f rest ih =>
    intro m k x
    rw [List.foldl_cons, ih]
    rw [lookupList_assocAppend]
    by_cases hk : k = f
    · rw [if_pos hk]
      simp only [List.mem_append, List.mem_singleton, List.mem_cons]
      subst hk
      tauto
    · rw [if_neg hk]
      simp only [List.mem_cons]
      constructor
      · rintro (h | h)
        · exact Or.inl h
        · exact Or.inr ⟨Or.inr h.1, h.2⟩
      · rintro (h | ⟨hf | hf, hx⟩)
        · exact Or.inl h
        · exact absurd hf.symm (fun h2 => hk (hf ▸ rfl))
        · exact Or.inr ⟨hf, hx⟩

theorem foldNetwork_containedMem (isNerve : Nat → Bool) :
    ∀ (cs : List Centreline) (st : NetworkState), ValidDecls cs st →
      ∀ f x, x ∈ lookupList
          (cs.foldl (processCentreline isNerve) st).containedCentrelines f ↔
        x ∈ lookupList st.containedCentrelines f ∨
          ∃ c ∈ cs, c.idOf = x ∧ f ∈ c.containedIn := by
  intro cs
  induction cs with
  | nil => intro st _ f x; simp
  | cons c rest ih =>
    intro st hv f x
    obtain ⟨cid, hcid⟩ := Option.isSome_iff_exists.mp (hv.1 c (by simp))
    have hidOf : c.idOf = cid := by simp [Centreline.idOf, hcid]
    have hfr : cid ∉ st.centrelineIds := by
      rw [← hidOf]; exact hv.2.2.2 c (by simp)
    obtain ⟨_, _, hcc, _⟩ := accepted_eq isNerve st hcid hfr (hv.2.1 c (by simp))
    rw [List.foldl_cons, ih _ (ValidDecls_tail isNerve hv), hcc,
      lookupList_foldAppend]
    constructor
    · rintro ((h | ⟨hf, hx⟩) | ⟨c2, hc2, hx, hf⟩)
      · exact Or.inl h
      · exact Or.inr ⟨c, by simp, by rw [hidOf, hx], List.mem_dedup.mp hf⟩
      · exact Or.inr ⟨c2, by simp [hc2], hx, hf⟩
    · rintro (h | ⟨c2, hc2, hx, hf⟩)
      · exact Or.inl (Or.inl h)
      · rcases List.mem_cons.mp hc2 with rfl | hc2
        · exact Or.inl (Or.inr ⟨List.mem_dedup.mpr hf, by rw [← hidOf, hx]⟩)
        · exact Or.inr ⟨c2, hc2, hx, hf⟩

theorem addEdgeNX_endpoints (u v : Nat) (p : EdgeProps) :
    ∀ (edges : List (Nat × Nat × EdgeProps)), ∀ e ∈ addEdgeNX edges u v p,
      (∃ e0 ∈ edges, e.1 = e0.1 ∧ e.2.1 = e0.2.1) ∨ (e.1 = u ∧ e.2.1 = v) := by
  intro edges
  induction edges with
  | nil =>
    intro e he
    simp [addEdgeNX] at he
    subst he
    exact Or.inr ⟨rfl, rfl⟩
  | cons e0 rest ih =>
    obtain ⟨a, b, q⟩ := e0
    intro e he
    rw [addEdgeNX] at he
    by_cases hcond : (a = u ∧ b = v) ∨ (a = v ∧ b = u)
    · rw [if_pos hcond] at he
      rcases List.mem_cons.mp he with rfl | he2
      · exact Or.inl ⟨(a, b, q), by simp, rfl, rfl⟩
      · exact Or.inl ⟨e, List.mem_cons.mpr (Or.inr he2), rfl, rfl⟩
    · rw [if_neg hcond] at he
      rcases List.mem_cons.mp he with rfl | he2
      · exact Or.inl ⟨(a, b, q), by simp, rfl, rfl⟩
      · rcases ih e he2 with ⟨e1, he1, h1, h2⟩ | h
        · exact Or.inl ⟨e1, List.mem_cons.mpr (Or.inr he1), h1, h2⟩
        · exact Or.inr h

theorem foldNetwork_endpoints (isNerve : Nat → Bool) :
    ∀ (cs : List Centreline) (st : NetworkState),
      ∀ e ∈ (cs.foldl (processCentreline isNerve) st).edges,
        (∃ e0 ∈ st.edges, e.1 = e0.1 ∧ e.2.1 = e0.2.1) ∨
        ∃ c ∈ cs, e.1 = c.connects.headD 0 ∧ e.2.1 = c.connects.getLastD 0 := by
  intro cs
  induction cs with
  | nil => intro st e he; exact Or.inl ⟨e, he, rfl, rfl⟩
  | cons c rest ih =>
    intro st e he
    rw [List.foldl_cons] at he
    have hsub : ∀ e2 ∈ (processCentreline isNerve st c).edges,
        (∃ e0 ∈ st.edges, e2.1 = e0.1 ∧ e2.2.1 = e0.2.1) ∨
        (e2.1 = c.connects.headD 0 ∧ e2.2.1 = c.connects.getLastD 0) := by
      intro e2 he2
      unfold processCentreline at he2
      rcases hcid : c.id? with _ | cid <;> rw [hcid] at he2
      · exact Or.inl ⟨e2, he2, rfl, rfl⟩
      · dsimp only at he2
        by_cases hdup : cid ∈ st.centrelineIds
        · rw [if_pos hdup] at he2
          exact Or.inl ⟨e2, he2, rfl, rfl⟩
        · rw [if_neg hdup] at he2
          by_cases hlen : c.connects.length < 2
          · rw [if_pos hlen] at he2
            exact Or.inl ⟨e2, he2, rfl, rfl⟩
          · rw [if_neg hlen] at he2
            exact addEdgeNX_endpoints _ _ _ _ e2 he2
    rcases ih _ e he with ⟨e0, he0, h1, h2⟩ | ⟨c2, hc2, h1, h2⟩
    · rcases hsub e0 he0 with ⟨e1, he1, h3, h4⟩ | ⟨h3, h4⟩
      · exact Or.inl ⟨e1, he1, h1.trans h3, h2.trans h4⟩
      · exact Or.inr ⟨c, by simp, h1.trans h3, h2.trans h4⟩
    · exact Or.inr ⟨c2, by simp [hc2], h1, h2⟩

/-! ### Claim C6 -/

/-- C6 (amended): for a network declaration with unique present ids and
at least two connects entries each, the constructed graph has exactly one
edge per *distinct unordered endpoint pair* (a later centreline sharing
endpoints with an earlier one merges into the same `networkx` edge
instead of adding a second one); the recorded containing-feature count of
every centreline equals the number of distinct ids in its declared
`containedIn` set, and each containing feature's list includes the
centreline's id. -/
theorem C6_network_build_amended (isNerve : Nat → Bool) (cs : List Centreline)
    (hids : ∀ c ∈ cs, c.id?.isSome = true)
    (hconn : ∀ c ∈ cs, 2 ≤ c.connects.length)
    (hnodup : (cs.map Centreline.idOf).Nodup) :
    (buildNetwork isNerve cs).edges.length =
      (cs.map Centreline.key).dedup.length ∧
    (∀ c ∈ cs, lookupA (buildNetwork isNerve cs).containedCount c.idOf =
      some c.containedIn.dedup.length) ∧
    (∀ c ∈ cs, ∀ f ∈ c.containedIn,
      c.idOf ∈ lookupList (buildNetwork isNerve cs).containedCentrelines f) := by
  have hv : ValidDecls cs ⟨[], [], [], []⟩ :=
    ⟨hids, hconn, hnodup, fun c _ => by simp⟩
  refine ⟨?_, ?_, ?_⟩
  · obtain ⟨hnd, hmem⟩ := foldNetwork_edgeKeys isNerve cs _ hv (by simp [edgeKeys])
    have hlen1 : (buildNetwork isNerve cs).edges.length =
        (edgeKeys (buildNetwork isNerve cs).edges).length :=
      (List.length_map _ _).symm
    have hperm : List.Perm (edgeKeys (buildNetwork isNerve cs).edges)
        ((cs.map Centreline.key).dedup) := by
      refine (List.perm_ext_iff_of_nodup hnd (List.nodup_dedup _)).mpr fun a => ?_
      rw [List.mem_dedup]
      refine (hmem a).trans ?_
      simp [edgeKeys]
    exact hlen1.trans hperm.length_eq
  · intro c hc
    have hcnt := foldNetwork_containedCount isNerve cs _ hv
    rw [buildNetwork, hcnt]
    simp only [List.nil_append]
    refine lookupA_eq_of_mem_nodup _ ?_ (List.mem_map.mpr ⟨c, hc, rfl⟩)
    have : (cs.map fun c => (c.idOf, c.containedIn.dedup.length)).map Prod.fst =
        cs.map Centreline.idOf := by
      rw [List.map_map]
      rfl
    rw [this]
    exact hnodup
  · intro c hc f hf
    have hmem := foldNetwork_containedMem isNerve cs _ hv f c.idOf
    rw [buildNetwork] at *
    rw [hmem]
    exact Or.inr ⟨c, hc, rfl, hf⟩

/-- C6 counterexample: two valid centrelines (unique ids 1 and 2, two
connects each) that share the endpoint pair `{10, 11}` produce a graph
with a single edge, not one edge per declared centreline — `add_edge`
overwrites the first edge's attributes instead of adding a second edge. -/
theorem C6_counterexample :
    (∀ c ∈ ([⟨some 1, [10, 11], []⟩, ⟨some 2, [10, 11], []⟩] :
        List Centreline), c.id?.isSome = true) ∧
    (∀ c ∈ ([⟨some 1, [10, 11], []⟩, ⟨some 2, [10, 11], []⟩] :
        List Centreline), 2 ≤ c.connects.length) ∧
    (([⟨some 1, [10, 11], []⟩, ⟨some 2, [10, 11], []⟩] :
        List Centreline).map Centreline.idOf).Nodup ∧
    ([⟨some 1, [10, 11], []⟩, ⟨some 2, [10, 11], []⟩] :
        List Centreline).length = 2 ∧
    (buildNetwork (fun _ => false)
        [⟨some 1, [10, 11], []⟩, ⟨some 2, [10, 11], []⟩]).edges.length = 1 := by
  refine ⟨by decide, by decide, by decide, rfl, rfl⟩

/-- C6 witness: a single centreline with a duplicated `containedIn` entry
satisfies the amended theorem's hypotheses; its recorded count is the
number of distinct containing features. -/
theorem C6_witness :
    ((∀ c ∈ ([⟨some 1, [7, 8], [9, 9, 12]⟩] : List Centreline),
        c.id?.isSome = true) ∧
     (∀ c ∈ ([⟨some 1, [7, 8], [9, 9, 12]⟩] : List Centreline),
        2 ≤ c.connects.length) ∧
     (([⟨some 1, [7, 8], [9, 9, 12]⟩] : List Centreline).map
        Centreline.idOf).Nodup) ∧
    ((buildNetwork (fun _ => false) [⟨some 1, [7, 8], [9, 9, 12]⟩]).edges.length =
      (([⟨some 1, [7, 8], [9, 9, 12]⟩] : List Centreline).map
        Centreline.key).dedup.length ∧
     (∀ c ∈ ([⟨some 1, [7, 8], [9, 9, 12]⟩] : List Centreline),
        lookupA (buildNetwork (fun _ => false)
          [⟨some 1, [7, 8], [9, 9, 12]⟩]).containedCount c.idOf =
        some c.containedIn.dedup.length) ∧
     (∀ c ∈ ([⟨some 1, [7, 8], [9, 9, 12]⟩] : List Centreline),
        ∀ f ∈ c.containedIn,
          c.idOf ∈ lookupList (buildNetwork (fun _ => false)
            [⟨some 1, [7, 8], [9, 9, 12]⟩]).containedCentrelines f)) :=
  ⟨⟨by decide, by decide, by decide⟩,
   C6_network_build_amended (fun _ => false) [⟨some 1, [7, 8], [9, 9, 12]⟩]
     (by decide) (by decide) (by decide)⟩

/-! ### Claim C7 -/

/-- C7 (amended): the edge created for an accepted centreline connects
its first and last `connects` nodes, so whenever no declared centreline
starts and ends at the same node, every edge of the constructed graph has
two distinct endpoints.  (A centreline whose connects list starts and
ends at the same node is accepted and produces a self-loop; see the
counterexample.) -/
theorem C7_edge_endpoints_amended (isNerve : Nat → Bool) (cs : List Centreline)
    (hdist : ∀ c ∈ cs, c.connects.headD 0 ≠ c.connects.getLastD 0) :
    ∀ e ∈ (buildNetwork isNerve cs).edges, e.1 ≠ e.2.1 := by
  intro e he
  rcases foldNetwork_endpoints isNerve cs ⟨[], [], [], []⟩ e he with
    ⟨e0, he0, _⟩ | ⟨c, hc, h1, h2⟩
  · simp at he0
  · rw [h1, h2]
    exact hdist c hc

/-- C7 counterexample: the centreline `connects = [7, 7]` is accepted (id
recorded, two connects entries) and creates a self-loop edge `(7, 7)`. -/
theorem C7_counterexample :
    ((buildNetwork (fun _ => false) [⟨some 1, [7, 7], []⟩]).edges.map
      fun e => (e.1, e.2.1)) = [(7, 7)] ∧
    1 ∈ (buildNetwork (fun _ => false) [⟨some 1, [7, 7], []⟩]).centrelineIds :=
  ⟨rfl, by decide⟩

/-- C7 witness: a centreline with distinct first and last connects nodes
produces an edge with distinct endpoints. -/
theorem C7_witness :
    (∀ c ∈ ([⟨some 1, [7, 8], []⟩] : List Centreline),
      c.connects.headD 0 ≠ c.connects.getLastD 0) ∧
    (∀ e ∈ (buildNetwork (fun _ => false) [⟨some 1, [7, 8], []⟩]).edges,
      e.1 ≠ e.2.1) :=
  ⟨by decide,
   C7_edge_endpoints_amended (fun _ => false) [⟨some 1, [7, 8], []⟩] (by decide)⟩

/-! ### Lemmas for the route-graph frame property (claim C9) -/

theorem write_next (st : RefStore V) (r : Nat) (k : String) (v : V) :
    (st.write r k v).next = st.next := rfl

theorem write_mem_ne (st : RefStore V) {r r2 : Nat} (k : String) (v : V)
    (h : r2 ≠ r) : (st.write r k v).mem r2 = st.mem r2 := by
  simp [RefStore.write, h]

theorem alloc_spec (st : RefStore V) (d : List (String × V)) :
    (st.alloc d).1.next = st.next + 1 ∧ (st.alloc d).2 = st.next ∧
    ∀ r, r ≠ st.next → (st.alloc d).1.mem r = st.mem r := by
  refine ⟨rfl, rfl, fun r h => ?_⟩
  simp [RefStore.alloc, h]

theorem StoreEvolves_refl (bound : Nat) (extra : List Nat) (st : RefStore V) :
    StoreEvolves bound extra st st :=
  ⟨le_rfl, fun _ _ _ => rfl⟩

theorem StoreEvolves_trans {bound : Nat} {extra : List Nat}
    {st1 st2 st3 : RefStore V} (h1 : StoreEvolves bound extra st1 st2)
    (h2 : StoreEvolves bound extra st2 st3) : StoreEvolves bound extra st1 st3 :=
  ⟨le_trans h1.1 h2.1, fun r hr hre => (h2.2 r hr hre).trans (h1.2 r hr hre)⟩

theorem writePropsR_spec (r : Nat) :
    ∀ (props : List (String × V)) (st : RefStore V),
      (writePropsR st r props).next = st.next ∧
      ∀ r2, r2 ≠ r → (writePropsR st r props).mem r2 = st.mem r2 := by
  intro props
  induction props with
  | nil => intro st; exact ⟨rfl, fun _ _ => rfl⟩
  | cons kv rest ih =>
    intro st
    have hdef : writePropsR st r (kv :: rest) =
        writePropsR (st.write r kv.1 kv.2) r rest := rfl
    rw [hdef]
    obtain ⟨h1, h2⟩ := ih (st.write r kv.1 kv.2)
    refine ⟨by rw [h1]; rfl, fun r2 hr2 => ?_⟩
    rw [h2 r2 hr2, write_mem_ne st _ _ hr2]

theorem copyNodes_spec :
    ∀ (ns : List (Nat × Nat)) (st : RefStore V),
      st.next ≤ (copyNodes st ns).1.next ∧
      (∀ r, r < st.next → (copyNodes st ns).1.mem r = st.mem r) ∧
      (∀ p ∈ (copyNodes st ns).2,
        st.next ≤ p.2 ∧ p.2 < (copyNodes st ns).1.next) := by
  intro ns
  induction ns with
  | nil =>
    intro st
    exact ⟨le_rfl, fun _ _ => rfl, fun p hp => by simp [copyNodes] at hp⟩
  | cons nr rest ih =>
    obtain ⟨n, r⟩ := nr
    intro st
    have hdef : copyNodes st ((n, r) :: rest) =
        ((copyNodes (st.alloc (st.mem r)).1 rest).1,
         (n, (st.alloc (st.mem r)).2) ::
           (copyNodes (st.alloc (st.mem r)).1 rest).2) := rfl
    rw [hdef]
    obtain ⟨ih1, ih2, ih3⟩ := ih (st.alloc (st.mem r)).1
    have halloc := alloc_spec st (st.mem r)
    refine ⟨?_, ?_, ?_⟩
    · calc st.next ≤ st.next + 1 := Nat.le_succ _
        _ = (st.alloc (st.mem r)).1.next := halloc.1.symm
        _ ≤ _ := ih1
    · intro r2 hr2
      rw [ih2 r2 (by rw [halloc.1]; omega), halloc.2.2 r2 (by omega)]
    · intro p hp
      rcases List.mem_cons.mp hp with rfl | hp2
      · constructor
        · exact le_of_eq halloc.2.1.symm
        · rw [halloc.2.1]
          calc st.next < st.next + 1 := Nat.lt_succ_self _
            _ = (st.alloc (st.mem r)).1.next := halloc.1.symm
            _ ≤ _ := ih1
      · obtain ⟨h1, h2⟩ := ih3 p hp2
        refine ⟨le_trans ?_ h1, h2⟩
        rw [halloc.1]
        omega

theorem copyEdges_spec :
    ∀ (es : List (Nat × Nat × Nat)) (st : RefStore V),
      st.next ≤ (copyEdges st es).1.next ∧
      (∀ r, r < st.next → (copyEdges st es).1.mem r = st.mem r) ∧
      (∀ e ∈ (copyEdges st es).2,
        st.next ≤ e.2.2 ∧ e.2.2 < (copyEdges st es).1.next) := by
  intro es
  induction es with
  | nil =>
    intro st
    exact ⟨le_rfl, fun _ _ => rfl, fun e he => by simp [copyEdges] at he⟩
  | cons er rest ih =>
    obtain ⟨u, v, r⟩ := er
    intro st
    have hdef : copyEdges st ((u, v, r) :: rest) =
        ((copyEdges (st.alloc (st.mem r)).1 rest).1,
         (u, v, (st.alloc (st.mem r)).2) ::
           (copyEdges (st.alloc (st.mem r)).1 rest).2) := rfl
    rw [hdef]
    obtain ⟨ih1, ih2, ih3⟩ := ih (st.alloc (st.mem r)).1
    have halloc := alloc_spec st (st.mem r)
    refine ⟨?_, ?_, ?_⟩
    · calc st.next ≤ st.next + 1 := Nat.le_succ _
        _ = (st.alloc (st.mem r)).1.next := halloc.1.symm
        _ ≤ _ := ih1
    · intro r2 hr2
      rw [ih2 r2 (by rw [halloc.1]; omega), halloc.2.2 r2 (by omega)]
    · intro e he
      rcases List.mem_cons.mp he with rfl | he2
      · constructor
        · exact le_of_eq halloc.2.1.symm
        · rw [halloc.2.1]
          calc st.next < st.next + 1 := Nat.lt_succ_self _
            _ = (st.alloc (st.mem r)).1.next := halloc.1.symm
            _ ≤ _ := ih1
      · obtain ⟨h1, h2⟩ := ih3 e he2
        refine ⟨le_trans ?_ h1, h2⟩
        rw [halloc.1]
        omega

theorem copyGraphR_spec (st : RefStore V) (g : GraphR) :
    st.next ≤ (copyGraphR st g).1.next ∧
    (∀ r, r < st.next → (copyGraphR st g).1.mem r = st.mem r) ∧
    (∀ r ∈ (copyGraphR st g).2.refs,
      st.next ≤ r ∧ r < (copyGraphR st g).1.next) := by
  obtain ⟨hn1, hn2, hn3⟩ := copyNodes_spec g.nodes st
  obtain ⟨he1, he2, he3⟩ := copyEdges_spec g.edges (copyNodes st g.nodes).1
  have hdef : copyGraphR st g =
      ((copyEdges (copyNodes st g.nodes).1 g.edges).1,
       ⟨(copyNodes st g.nodes).2,
        (copyEdges (copyNodes st g.nodes).1 g.edges).2⟩) := rfl
  rw [hdef]
  refine ⟨le_trans hn1 he1, ?_, ?_⟩
  · intro r hr
    rw [he2 r (lt_of_lt_of_le hr hn1), hn2 r hr]
  · intro r hr
    simp only [GraphR.refs] at hr
    rcases List.mem_append.mp hr with hr1 | hr2
    · obtain ⟨p, hp, hpr⟩ := List.mem_map.mp hr1
      obtain ⟨h1, h2⟩ := hn3 p hp
      exact ⟨hpr ▸ h1, hpr ▸ lt_of_lt_of_le h2 he1⟩
    · obtain ⟨e, he, her⟩ := List.mem_map.mp hr2
      obtain ⟨h1, h2⟩ := he3 e he
      exact ⟨her ▸ le_trans hn1 h1, her ▸ h2⟩

theorem nodeRefOf_mem {g : GraphR} {n r : Nat} (h : nodeRefOf g n = some r) :
    r ∈ g.refs := by
  unfold nodeRefOf at h
  obtain ⟨p, hp, hpr⟩ := Option.map_eq_some'.mp h
  apply List.mem_append.mpr
  left
  exact List.mem_map.mpr ⟨p, List.mem_of_find?_eq_some hp, hpr⟩

theorem edgeRefOf_mem {g : GraphR} {u v r : Nat} (h : edgeRefOf g u v = some r) :
    r ∈ g.refs := by
  unfold edgeRefOf at h
  obtain ⟨e, he, her⟩ := Option.map_eq_some'.mp h
  apply List.mem_append.mpr
  right
  exact List.mem_map.mpr ⟨e, List.mem_of_find?_eq_some he, her⟩

theorem ensureNode_spec (bound : Nat) (extra : List Nat) (st : RefStore V)
    (g : GraphR) (n : Nat) (hg : GoodRefs bound (st, g)) :
    StoreEvolves bound extra st (ensureNode st g n).1 ∧
    GoodRefs bound (ensureNode st g n) := by
  unfold ensureNode
  by_cases hc : (g.nodes.map fun p => p.1).contains n = true
  · rw [if_pos hc]
    exact ⟨StoreEvolves_refl bound extra st, hg⟩
  · rw [if_neg hc]
    dsimp only
    have halloc := alloc_spec st ([] : List (String × V))
    have hb : bound ≤ st.next := hg.1
    constructor
    · refine ⟨by rw [halloc.1]; omega, fun r hr _ => ?_⟩
      exact halloc.2.2 r (by omega)
    · refine ⟨by rw [halloc.1]; omega, ?_⟩
      intro r hr
      have hold : ∀ r2 ∈ g.refs,
          bound ≤ r2 ∧ r2 < (st.alloc ([] : List (String × V))).1.next := by
        intro r2 h2
        obtain ⟨h3, h4⟩ := hg.2 r2 h2
        dsimp only at h4
        exact ⟨h3, by rw [halloc.1]; omega⟩
      simp only [GraphR.refs, List.map_append, List.map_cons, List.map_nil,
        List.mem_append, List.mem_cons, List.not_mem_nil, or_false] at hr
      rcases hr with (h | h) | h
      · exact hold r (List.mem_append.mpr (Or.inl h))
      · subst h
        refine ⟨by rw [halloc.2.1]; exact hb, ?_⟩
        rw [halloc.2.1, halloc.1]
        omega
      · exact hold r (List.mem_append.mpr (Or.inr h))

theorem StoreEvolves_write_ge (bound : Nat) (extra : List Nat)
    (st : RefStore V) {r : Nat} (hr : bound ≤ r) (k : String) (v : V) :
    StoreEvolves bound extra st (st.write r k v) :=
  ⟨le_of_eq (write_next st r k v).symm,
   fun r2 h2 _ => write_mem_ne st k v (by omega)⟩

theorem StoreEvolves_write_extra (bound : Nat) (extra : List Nat)
    (st : RefStore V) {r : Nat} (hr : r ∈ extra) (k : String) (v : V) :
    StoreEvolves bound extra st (st.write r k v) :=
  ⟨le_of_eq (write_next st r k v).symm,
   fun r2 _ hne => write_mem_ne st k v (fun h => hne (h ▸ hr))⟩

theorem StoreEvolves_writeProps_ge (bound : Nat) (extra : List Nat)
    (st : RefStore V) {r : Nat} (hr : bound ≤ r)
    (props : List (String × V)) :
    StoreEvolves bound extra st (writePropsR st r props) :=
  ⟨le_of_eq (writePropsR_spec r props st).1.symm,
   fun r2 h2 _ => (writePropsR_spec r props st).2 r2 (by omega)⟩

theorem StoreEvolves_writeProps_extra (bound : Nat) (extra : List Nat)
    (st : RefStore V) {r : Nat} (hr : r ∈ extra)
    (props : List (String × V)) :
    StoreEvolves bound extra st (writePropsR st r props) :=
  ⟨le_of_eq (writePropsR_spec r props st).1.symm,
   fun r2 _ hne => (writePropsR_spec r props st).2 r2 (fun h => hne (h ▸ hr))⟩

theorem addEdgeR_spec (bound : Nat) (extra : List Nat) (st : RefStore V)
    (g : GraphR) (u v : Nat) (hg : GoodRefs bound (st, g)) :
    StoreEvolves bound extra st (addEdgeR st g u v).1 ∧
    GoodRefs bound (addEdgeR st g u v) := by
  unfold addEdgeR
  dsimp only
  obtain ⟨he1, hg1⟩ := ensureNode_spec bound extra st g u hg
  obtain ⟨he2, hg2⟩ := ensureNode_spec bound extra (ensureNode st g u).1
    (ensureNode st g u).2 v hg1
  by_cases hc : ((ensureNode (ensureNode st g u).1 (ensureNode st g u).2 v).2.edges.any
      fun e => (e.1 = u && e.2.1 = v) || (e.1 = v && e.2.1 = u)) = true
  · rw [if_pos hc]
    exact ⟨StoreEvolves_trans he1 he2, hg2⟩
  · rw [if_neg hc]
    dsimp only
    set s2 := ensureNode (ensureNode st g u).1 (ensureNode st g u).2 v with hs2
    have halloc := alloc_spec s2.1 ([] : List (String × V))
    have hb : bound ≤ s2.1.next := hg2.1
    constructor
    · refine StoreEvolves_trans (StoreEvolves_trans he1 he2)
        ⟨by rw [halloc.1]; omega, fun r hr _ => ?_⟩
      exact halloc.2.2 r (by omega)
    · refine ⟨by rw [halloc.1]; omega, ?_⟩
      intro r hr
      have hold : ∀ r2 ∈ s2.2.refs,
          bound ≤ r2 ∧ r2 < (s2.1.alloc ([] : List (String × V))).1.next := by
        intro r2 h2
        obtain ⟨h3, h4⟩ := hg2.2 r2 h2
        exact ⟨h3, by rw [halloc.1]; omega⟩
      simp only [GraphR.refs, List.map_append, List.map_cons, List.map_nil,
        List.mem_append, List.mem_cons, List.not_mem_nil, or_false] at hr
      dsimp only
      rcases hr with h | (h | h)
      · exact hold r (List.mem_append.mpr (Or.inl h))
      · exact hold r (List.mem_append.mpr (Or.inr h))
      · subst h
        refine ⟨by rw [halloc.2.1]; exact hb, ?_⟩
        rw [halloc.2.1, halloc.1]
        omega

theorem addTerminal_spec (bound : Nat) (extra : List Nat)
    (featureProps : Nat → List (String × V)) (terminalTag : V)
    (endNode tid : Nat) (acc : RefStore V × GraphR)
    (hg : GoodRefs bound acc) :
    StoreEvolves bound extra acc.1
      (addTerminal featureProps terminalTag endNode tid acc).1 ∧
    GoodRefs bound (addTerminal featureProps terminalTag endNode tid acc) := by
  unfold addTerminal
  dsimp only
  obtain ⟨he1, hg1⟩ := addEdgeR_spec bound extra acc.1 acc.2 endNode tid hg
  set s1 := addEdgeR acc.1 acc.2 endNode tid with hs1
  have hnext1 : ∀ st2 : RefStore V, st2.next = s1.1.next →
      GoodRefs bound (st2, s1.2) := by
    intro st2 hst2
    exact ⟨by rw [hst2]; exact hg1.1, fun r hr => by
      rw [hst2]; exact hg1.2 r hr⟩
  rcases hnr : nodeRefOf s1.2 tid with _ | r
  · rcases her : edgeRefOf s1.2 endNode tid with _ | r2
    · exact ⟨he1, hg1⟩
    · have hr2 : bound ≤ r2 := (hg1.2 r2 (edgeRefOf_mem her)).1
      refine ⟨StoreEvolves_trans he1
        (StoreEvolves_write_ge bound extra s1.1 hr2 _ _), ?_⟩
      exact hnext1 _ (write_next _ _ _ _)
  · have hr : bound ≤ r := (hg1.2 r (nodeRefOf_mem hnr)).1
    rcases her : edgeRefOf s1.2 endNode tid with _ | r2
    · refine ⟨StoreEvolves_trans he1
        (StoreEvolves_writeProps_ge bound extra s1.1 hr _), ?_⟩
      exact hnext1 _ (writePropsR_spec _ _ _).1
    · have hr2 : bound ≤ r2 := (hg1.2 r2 (edgeRefOf_mem her)).1
      refine ⟨StoreEvolves_trans he1 (StoreEvolves_trans
        (StoreEvolves_writeProps_ge bound extra s1.1 hr _)
        (StoreEvolves_write_ge bound extra _ hr2 _ _)), ?_⟩
      refine hnext1 _ ?_
      rw [write_next, (writePropsR_spec _ _ _).1]

theorem addTerminalC_spec (bound : Nat) (extra : List Nat)
    (featureProps : Nat → List (String × V)) (terminalTag : V)
    (endNode tid : Nat) (acc : RefStore V × GraphR)
    (hg : GoodRefs bound acc) :
    StoreEvolves bound extra acc.1
      (addTerminalC featureProps terminalTag endNode tid acc).1 ∧
    GoodRefs bound (addTerminalC featureProps terminalTag endNode tid acc) := by
  unfold addTerminalC
  dsimp only
  obtain ⟨he1, hg1⟩ := addEdgeR_spec bound extra acc.1 acc.2 endNode tid hg
  set s1 := addEdgeR acc.1 acc.2 endNode tid with hs1
  have hnext1 : ∀ st2 : RefStore V, st2.next = s1.1.next →
      GoodRefs bound (st2, s1.2) := by
    intro st2 hst2
    exact ⟨by rw [hst2]; exact hg1.1, fun r hr => by
      rw [hst2]; exact hg1.2 r hr⟩
  rcases her : edgeRefOf s1.2 endNode tid with _ | r2
  · rcases hnr : nodeRefOf s1.2 tid with _ | r
    · exact ⟨he1, hg1⟩
    · have hr : bound ≤ r := (hg1.2 r (nodeRefOf_mem hnr)).1
      refine ⟨StoreEvolves_trans he1
        (StoreEvolves_writeProps_ge bound extra s1.1 hr _), ?_⟩
      exact hnext1 _ (writePropsR_spec _ _ _).1
  · have hr2 : bound ≤ r2 := (hg1.2 r2 (edgeRefOf_mem her)).1
    rcases hnr : nodeRefOf s1.2 tid with _ | r
    · refine ⟨StoreEvolves_trans he1
        (StoreEvolves_write_ge bound extra s1.1 hr2 _ _), ?_⟩
      exact hnext1 _ (write_next _ _ _ _)
    · have hr : bound ≤ r := (hg1.2 r (nodeRefOf_mem hnr)).1
      refine ⟨StoreEvolves_trans he1 (StoreEvolves_trans
        (StoreEvolves_write_ge bound extra s1.1 hr2 _ _)
        (StoreEvolves_writeProps_ge bound extra _ hr _)), ?_⟩
      refine hnext1 _ ?_
      rw [(writePropsR_spec _ _ _).1, write_next]

theorem foldPreserve {β : Type _} (bound : Nat) (extra : List Nat)
    (f : (RefStore V × GraphR) → β → (RefStore V × GraphR))
    (hf : ∀ acc b, GoodRefs bound acc →
      StoreEvolves bound extra acc.1 (f acc b).1 ∧ GoodRefs bound (f acc b)) :
    ∀ (l : List β) (acc : RefStore V × GraphR), GoodRefs bound acc →
      StoreEvolves bound extra acc.1 (l.foldl f acc).1 ∧
      GoodRefs bound (l.foldl f acc) := by
  intro l
  induction l with
  | nil => intro acc hg; exact ⟨StoreEvolves_refl bound extra acc.1, hg⟩
  | cons b rest ih =>
    intro acc hg
    obtain ⟨he1, hg1⟩ := hf acc b hg
    obtain ⟨he2, hg2⟩ := ih (f acc b) hg1
    exact ⟨StoreEvolves_trans he1 he2, hg2⟩

theorem mergeGraphR_refs {g1 g2 : GraphR} :
    ∀ r ∈ (mergeGraphR g1 g2).refs, r ∈ g1.refs ∨ r ∈ g2.refs := by
  intro r hr
  simp only [mergeGraphR, GraphR.refs, List.map_append, List.mem_append] at hr
  rcases hr with (h | h) | (h | h)
  · exact Or.inl (List.mem_append.mpr (Or.inl h))
  · obtain ⟨p, hp, hpr⟩ := List.mem_map.mp h
    exact Or.inr (List.mem_append.mpr (Or.inl
      (List.mem_map.mpr ⟨p, (List.mem_filter.mp hp).1, hpr⟩)))
  · exact Or.inl (List.mem_append.mpr (Or.inr h))
  · obtain ⟨e, het, her⟩ := List.mem_map.mp h
    exact Or.inr (List.mem_append.mpr (Or.inr
      (List.mem_map.mpr ⟨e, (List.mem_filter.mp het).1, her⟩)))

theorem connWritesFold_spec (bound : Nat) (connectivity : GraphR)
    (nodeWrites : Nat → List (String × V)) :
    ∀ (comp : List Nat) (s : RefStore V),
      StoreEvolves bound connectivity.refs s
        (comp.foldl (fun s2 n =>
          match nodeRefOf connectivity n with
          | some r => writePropsR s2 r (nodeWrites n)
          | none => s2) s) ∧
      (comp.foldl (fun s2 n =>
          match nodeRefOf connectivity n with
          | some r => writePropsR s2 r (nodeWrites n)
          | none => s2) s).next = s.next := by
  intro comp
  induction comp with
  | nil => intro s; exact ⟨StoreEvolves_refl bound connectivity.refs s, rfl⟩
  | cons n rest ih =>
    intro s
    rw [List.foldl_cons]
    rcases hnr : nodeRefOf connectivity n with _ | r
    · simp only [hnr]
      exact ih s
    · simp only [hnr]
      obtain ⟨ih1, ih2⟩ := ih (writePropsR s r (nodeWrites n))
      have hr : r ∈ connectivity.refs := nodeRefOf_mem hnr
      refine ⟨StoreEvolves_trans
        (StoreEvolves_writeProps_extra bound connectivity.refs s hr _) ih1, ?_⟩
      rw [ih2, (writePropsR_spec r (nodeWrites n) s).1]

set_option maxHeartbeats 1000000 in
theorem processComponentR_spec (bound : Nat)
    (featureProps : Nat → List (String × V)) (terminalTag : V)
    (nodeWrites : Nat → List (String × V))
    (routeFeatureIds : List Nat → List Nat)
    (terminalsOf : List Nat → List (Nat × List Nat))
    (base connectivity : GraphR)
    (acc : RefStore V × GraphR) (comp : List Nat)
    (hg : GoodRefs bound acc) :
    StoreEvolves bound connectivity.refs acc.1
      (processComponentR featureProps terminalTag nodeWrites routeFeatureIds
        terminalsOf base connectivity acc comp).1 ∧
    GoodRefs bound
      (processComponentR featureProps terminalTag nodeWrites routeFeatureIds
        terminalsOf base connectivity acc comp) := by
  unfold processComponentR
  dsimp only
  set st1 := comp.foldl (fun s n =>
      match nodeRefOf connectivity n with
      | some r => writePropsR s r (nodeWrites n)
      | none => s) acc.1 with hst1
  set sub := subgraphR base (vppList base.toGraphL (routeFeatureIds comp))
    with hsub
  set cp := copyGraphR st1 sub with hcp
  set wt := (terminalsOf comp).foldl (fun acc2 et =>
      et.2.foldl
        (fun acc3 tid => addTerminalC featureProps terminalTag et.1 tid acc3)
        acc2) cp with hwt
  set cp2 := copyGraphR wt.1 wt.2 with hcp2
  obtain ⟨hev1, hnext1⟩ :=
    connWritesFold_spec bound connectivity nodeWrites comp acc.1
  rw [← hst1] at hev1 hnext1
  have hbst1 : bound ≤ st1.next := by rw [hnext1]; exact hg.1
  obtain ⟨h1, h2, h3⟩ := copyGraphR_spec st1 sub
  rw [← hcp] at h1 h2 h3
  have hev2 : StoreEvolves bound connectivity.refs st1 cp.1 :=
    ⟨h1, fun r hr _ => h2 r (by omega)⟩
  have hgcp : GoodRefs bound cp :=
    ⟨le_trans hbst1 h1, fun r hr =>
      ⟨le_trans hbst1 (h3 r hr).1, (h3 r hr).2⟩⟩
  have hf : ∀ (acc2 : RefStore V × GraphR) (et : Nat × List Nat),
      GoodRefs bound acc2 →
      StoreEvolves bound connectivity.refs acc2.1
        (et.2.foldl
          (fun acc3 tid => addTerminalC featureProps terminalTag et.1 tid acc3)
          acc2).1 ∧
      GoodRefs bound
        (et.2.foldl
          (fun acc3 tid => addTerminalC featureProps terminalTag et.1 tid acc3)
          acc2) := by
    intro acc2 et hga
    exact foldPreserve bound connectivity.refs
      (fun acc3 tid => addTerminalC featureProps terminalTag et.1 tid acc3)
      (fun acc3 tid hga2 =>
        addTerminalC_spec bound connectivity.refs featureProps terminalTag
          et.1 tid acc3 hga2)
      et.2 acc2 hga
  obtain ⟨hev3, hgwt⟩ := foldPreserve bound connectivity.refs
    (fun acc2 et =>
      et.2.foldl
        (fun acc3 tid => addTerminalC featureProps terminalTag et.1 tid acc3)
        acc2)
    hf (terminalsOf comp) cp hgcp
  rw [← hwt] at hev3 hgwt
  have hbwt : bound ≤ wt.1.next := hgwt.1
  obtain ⟨h4, h5, h6⟩ := copyGraphR_spec wt.1 wt.2
  rw [← hcp2] at h4 h5 h6
  have hev4 : StoreEvolves bound connectivity.refs wt.1 cp2.1 :=
    ⟨h4, fun r hr _ => h5 r (by omega)⟩
  have hevAll : StoreEvolves bound connectivity.refs acc.1 cp2.1 :=
    StoreEvolves_trans hev1 (StoreEvolves_trans hev2
      (StoreEvolves_trans hev3 hev4))
  refine ⟨hevAll, le_trans hbwt h4, ?_⟩
  intro r hr
  rcases mergeGraphR_refs r hr with h | h
  · obtain ⟨ha, hb⟩ := hg.2 r h
    exact ⟨ha, lt_of_lt_of_le hb hevAll.1⟩
  · exact ⟨le_trans hbwt (h6 r h).1, (h6 r h).2⟩

/-- C9: `route_graph_from_connections` and `route_graph_from_connectivity`
never mutate the base centreline graph: with every base attribute dict
allocated (`base.wfIn st`) and, for the connectivity variant, the
connectivity graph's dicts distinct from the base's, (1) every base dict
holds the same value in the returned store, (2) every dict reference of
the returned route graph is fresh — not a base reference — and (3) a
later write through any returned route-graph reference (adding terminal
data, setting node properties) still leaves every base dict unchanged. -/
theorem C9_route_graph_frame (st : RefStore V) (base : GraphR)
    (conns : List ConnEntry) (connectivity : GraphR)
    (featureProps : Nat → List (String × V)) (terminalTag : V)
    (nodeWrites : Nat → List (String × V))
    (routeFeatureIds : List Nat → List Nat)
    (terminalsOf : List Nat → List (Nat × List Nat))
    (components : List (List Nat))
    (hwf : base.wfIn st)
    (hdisj : ∀ r ∈ connectivity.refs, r ∉ base.refs) :
    (∀ r0 ∈ base.refs,
      (route_graph_from_connections st base conns featureProps
        terminalTag).1.mem r0 = st.mem r0) ∧
    (∀ r ∈ (route_graph_from_connections st base conns featureProps
        terminalTag).2.refs, r ∉ base.refs) ∧
    (∀ r ∈ (route_graph_from_connections st base conns featureProps
        terminalTag).2.refs, ∀ (k : String) (v : V), ∀ r0 ∈ base.refs,
      ((route_graph_from_connections st base conns featureProps
        terminalTag).1.write r k v).mem r0 = st.mem r0) ∧
    (∀ r0 ∈ base.refs,
      (route_graph_from_connectivity st base connectivity featureProps
        terminalTag nodeWrites routeFeatureIds terminalsOf
        components).1.mem r0 = st.mem r0) ∧
    (∀ r ∈ (route_graph_from_connectivity st base connectivity featureProps
        terminalTag nodeWrites routeFeatureIds terminalsOf
        components).2.refs, r ∉ base.refs) ∧
    (∀ r ∈ (route_graph_from_connectivity st base connectivity featureProps
        terminalTag nodeWrites routeFeatureIds terminalsOf
        components).2.refs, ∀ (k : String) (v : V), ∀ r0 ∈ base.refs,
      ((route_graph_from_connectivity st base connectivity featureProps
        terminalTag nodeWrites routeFeatureIds terminalsOf
        components).1.write r k v).mem r0 = st.mem r0) := by
  have hA : StoreEvolves st.next [] st
      (route_graph_from_connections st base conns featureProps
        terminalTag).1 ∧
      GoodRefs st.next
        (route_graph_from_connections st base conns featureProps
          terminalTag) := by
    unfold route_graph_from_connections
    dsimp only
    set sub := subgraphR base (vppList base.toGraphL
      (conns.map ConnEntry.endNode)) with hsub
    set cp := copyGraphR st sub with hcp
    obtain ⟨h1, h2, h3⟩ := copyGraphR_spec st sub
    rw [← hcp] at h1 h2 h3
    have hev0 : StoreEvolves st.next [] st cp.1 :=
      ⟨h1, fun r hr _ => h2 r hr⟩
    have hgcp : GoodRefs st.next cp := ⟨h1, h3⟩
    have hf : ∀ (acc2 : RefStore V × GraphR) (c : ConnEntry),
        GoodRefs st.next acc2 →
        StoreEvolves st.next [] acc2.1
          (c.terminals.foldl
            (fun acc3 tid =>
              addTerminal featureProps terminalTag c.endNode tid acc3)
            acc2).1 ∧
        GoodRefs st.next
          (c.terminals.foldl
            (fun acc3 tid =>
              addTerminal featureProps terminalTag c.endNode tid acc3)
            acc2) := by
      intro acc2 c hga
      exact foldPreserve st.next []
        (fun acc3 tid =>
          addTerminal featureProps terminalTag c.endNode tid acc3)
        (fun acc3 tid hga2 =>
          addTerminal_spec st.next [] featureProps terminalTag c.endNode tid
            acc3 hga2)
        c.terminals acc2 hga
    obtain ⟨hev5, hg5⟩ := foldPreserve st.next []
      (fun acc2 c =>
        c.terminals.foldl
          (fun acc3 tid =>
            addTerminal featureProps terminalTag c.endNode tid acc3)
          acc2)
      hf conns cp hgcp
    exact ⟨StoreEvolves_trans hev0 hev5, hg5⟩
  have hB : StoreEvolves st.next connectivity.refs st
      (route_graph_from_connectivity st base connectivity featureProps
        terminalTag nodeWrites routeFeatureIds terminalsOf components).1 ∧
      GoodRefs st.next
        (route_graph_from_connectivity st base connectivity featureProps
          terminalTag nodeWrites routeFeatureIds terminalsOf components) := by
    unfold route_graph_from_connectivity
    exact foldPreserve st.next connectivity.refs
      (processComponentR featureProps terminalTag nodeWrites routeFeatureIds
        terminalsOf base connectivity)
      (fun acc b hga =>
        processComponentR_spec st.next featureProps terminalTag nodeWrites
          routeFeatureIds terminalsOf base connectivity acc b hga)
      components (st, ⟨[], []⟩)
      ⟨le_rfl, by intro r hr; simp [GraphR.refs] at hr⟩
  refine ⟨?_, ?_, ?_, ?_, ?_, ?_⟩
  · intro r0 h0
    exact hA.1.2 r0 (hwf r0 h0) (List.not_mem_nil r0)
  · intro r hr h0
    have h4 := (hA.2.2 r hr).1
    have h5 := hwf r h0
    omega
  · intro r hr k v r0 h0
    have hne : r0 ≠ r := by
      have h4 := (hA.2.2 r hr).1
      have h5 := hwf r0 h0
      omega
    rw [write_mem_ne _ k v hne]
    exact hA.1.2 r0 (hwf r0 h0) (List.not_mem_nil r0)
  · intro r0 h0
    exact hB.1.2 r0 (hwf r0 h0) (fun hc => hdisj r0 hc h0)
  · intro r hr h0
    have h4 := (hB.2.2 r hr).1
    have h5 := hwf r h0
    omega
  · intro r hr k v r0 h0
    have hne : r0 ≠ r := by
      have h4 := (hB.2.2 r hr).1
      have h5 := hwf r0 h0
      omega
    rw [write_mem_ne _ k v hne]
    exact hB.1.2 r0 (hwf r0 h0) (fun hc => hdisj r0 hc h0)

/-- Witness for C9 at a concrete instance: a two-dict store, a base graph
of one node whose dict is reference 0, a connectivity graph of one node
at reference 1, one connection with a terminal; the frame hypotheses hold
by computation and the base dict is unchanged by the construction. -/
theorem C9_witness :
    (⟨[(1, 0)], []⟩ : GraphR).wfIn (⟨2, fun _ => []⟩ : RefStore ℕ) ∧
    (∀ r ∈ (⟨[(5, 1)], []⟩ : GraphR).refs,
      r ∉ (⟨[(1, 0)], []⟩ : GraphR).refs) ∧
    (∀ r0 ∈ (⟨[(1, 0)], []⟩ : GraphR).refs,
      (route_graph_from_connections (⟨2, fun _ => []⟩ : RefStore ℕ)
        ⟨[(1, 0)], []⟩ [ConnEntry.withTerminals 1 [5]]
        (fun _ => [("x", 7)]) 9).1.mem r0 =
      (⟨2, fun _ => []⟩ : RefStore ℕ).mem r0) := by
  have hwf : (⟨[(1, 0)], []⟩ : GraphR).wfIn (⟨2, fun _ => []⟩ : RefStore ℕ) := by
    intro r hr
    simp [GraphR.refs] at hr
    show r < 2
    omega
  have hdisj : ∀ r ∈ (⟨[(5, 1)], []⟩ : GraphR).refs,
      r ∉ (⟨[(1, 0)], []⟩ : GraphR).refs := by
    intro r hr
    simp [GraphR.refs] at hr ⊢
    omega
  exact ⟨hwf, hdisj,
    (C9_route_graph_frame (⟨2, fun _ => []⟩ : RefStore ℕ) ⟨[(1, 0)], []⟩
      [ConnEntry.withTerminals 1 [5]] ⟨[(5, 1)], []⟩
      (fun _ => [("x", 7)]) 9 (fun _ => [("y", 3)]) (fun _ => [1])
      (fun _ => []) [[5]] hwf hdisj).1⟩
